import Mathlib

/-!
Verification of the schedule engine of `comps/cores/mega/orchestrator.py`
(`ServiceOrchestrator`).  The per-request runtime loop `schedule`, the
completion processing with black-list pruning and the stream-conformance
fallback, the downstream-forwarding stream stitcher `generate`, and the
wire-format helpers `extract_chunk_str` / `token_generator` are embedded
as executable Lean functions.

The DAG class lives in `dag.py`, which is not among the sources; its
operations (`downstream`, `predecessors`, `ind_nodes`, `delete_edge`,
`all_downstreams`, `delete_node_if_exists`) are modelled from the spec,
section 4.A.  Regular-expression matching (`re.findall`) is abstracted by
a boolean oracle per pattern; a pattern whose compilation raises
`re.error` is modelled by `valid := false`.

The asynchronous completion order of `asyncio.wait` is modelled by an
oracle list of node names: each loop iteration completes one chosen
pending task and processes it fully, mirroring the code, where the
body of `for done_task in done:` handles completed tasks one at a time.
-/

abbrev Node := String

/-- Association-list lookup, the shape of a Python dict access. -/
def alookup {κ α : Type} [DecidableEq κ] : List (κ × α) → κ → Option α
  | [], _ => none
  | (k, v) :: rest, x => if k = x then some v else alookup rest x

/-- Modelled from the spec (§3, §4.A): a graph is a mapping from node name to
the ordered, duplicate-free list of its direct successors (`dag.py` is not
among the sources). -/
abbrev Graph := List (Node × List Node)

/-- Modelled from the spec (§4.A): `downstream(n)`, the direct successors. -/
def downstream (g : Graph) (n : Node) : List Node := (alookup g n).getD []

/-- `(u, v)` is an edge of `g`. -/
def edgeIn (g : Graph) (u v : Node) : Prop := v ∈ downstream g u

instance (g : Graph) (u v : Node) : Decidable (edgeIn g u v) := by
  unfold edgeIn; infer_instance

/-- Modelled from the spec (§4.A): `delete_edge(u, v)` removes `v` from `u`'s
successor list. -/
def delete_edge (g : Graph) (u v : Node) : Graph :=
  g.map fun p => if p.1 = u then (p.1, p.2.erase v) else p

/-- `v` has at least one incoming edge. -/
def hasIncoming (g : Graph) (v : Node) : Bool := g.any fun p => decide (v ∈ p.2)

/-- Modelled from the spec (§4.A): `ind_nodes()`, the nodes with zero
predecessors — the roots seeded by `schedule`. -/
def ind_nodes (g : Graph) : List Node :=
  (g.map Prod.fst).filter fun v => !hasIncoming g v

/-- Modelled from the spec (§4.A): `predecessors(n)`. -/
def predecessors (g : Graph) (v : Node) : List Node :=
  (g.filter fun p => decide (v ∈ p.2)).map Prod.fst

/-- Modelled from the spec (§4.A): one breadth step of reachability. -/
def reachExpand (g : Graph) (acc : List Node) : List Node :=
  acc.foldl (fun a u => (downstream g u).foldl (fun b v => if v ∈ b then b else b ++ [v]) a) acc

/-- Modelled from the spec (§4.A): `all_downstreams(n)`, the transitive
successors of `n` (on an acyclic graph). -/
def all_downstreams (g : Graph) (n : Node) : List Node :=
  (((List.range (g.length + 1)).foldl (fun a _ => reachExpand g a) [n])).erase n

/-- Modelled from the spec (§4.A): `delete_node_if_exists(n)` removes the node
and its dangling edges. -/
def delete_node_if_exists (g : Graph) (n : Node) : Graph :=
  (g.filter fun p => decide (p.1 ≠ n)).map fun p => (p.1, p.2.erase n)

/-- A `downstream_black_list` entry.  `re.findall(black_node, downstream)`
(line 162) is abstracted by the oracle `hits`; `valid = false` models a
pattern whose compilation raises `re.error` (line 167). -/
structure BlackPattern where
  valid : Bool
  hits : Node → Bool

def squote : Char := Char.ofNat 39
def dquote : Char := Char.ofNat 34
def bslash : Char := Char.ofNat 92

/-- A completed node output as `schedule` distinguishes them: a structured
JSON payload (carrying an optional `downstream_black_list` and an optional
`text` field; other keys do not influence the scheduler) or a
`StreamingResponse`.  For a `StreamingResponse` we record the events its
generator yields and the number of `pending_update(False)` calls that
generator performs when it is consumed. -/
inductive Resp where
  | structured (blackList : Option (List BlackPattern)) (text : Option (List Char))
  | streaming (events : List (List Char)) (consumeDecs : Nat)

/-- Number of `pending_update(False)` calls performed when the response's
generator is consumed by the server (0 for a non-streaming payload). -/
def respConsumeDecs : Resp → Nat
  | .streaming _ k => k
  | .structured _ _ => 0

/-- Lines 172–178: the synthesized two-event stream of the stream-conformance
fallback.  The `fake_stream` generator body consists of the two `yield`
statements only: it performs no `pending_update` call, hence `consumeDecs = 0`. -/
def fake_stream (text : List Char) : Resp :=
  .streaming
    ["data: b".toList ++ [squote] ++ text ++ [squote] ++ "\n\n".toList,
     "data: [DONE]\n\n".toList] 0

/-- Scheduling trace events: `dispatched n` is one `asyncio.create_task(execute(... n ...))`
call; `completed n` is one `result_dict[n] = response` assignment. -/
inductive Ev where
  | dispatched (n : Node)
  | completed (n : Node)
deriving DecidableEq

/-- State of the black-list processing of one completed node: the local
`downstreams` view, the runtime graph, the pending `result_dict[node]`
override, the number of `logger.error` calls, and whether a `KeyError`
(`response["text"]` at line 177 with no `text` key) has been raised. -/
structure BlackSt where
  ds : List Node
  graph : Graph
  override : Option Resp
  logs : Nat
  err : Bool

/-- Lines 160–168, the inner loop for one `black_node` pattern: iterating
`reversed(downstreams)` while `remove`-ing the matched entries is, for a
duplicate-free successor list, exactly filtering the matched entries out,
and each match deletes the corresponding runtime-graph edge.  For an invalid
pattern, `re.findall` raises `re.error` once per downstream still in view;
each raise is caught and logged (counted in the third component) and nothing
is pruned. -/
def prune_black_node (n : Node) (p : BlackPattern) (ds : List Node) (g : Graph) :
    List Node × Graph × Nat :=
  if p.valid then
    (ds.filter (fun d => !p.hits d),
     ds.foldl (fun h d => if p.hits d then delete_edge h n d else h) g,
     0)
  else (ds, g, ds.length)

/-- Lines 159–178: the `for black_node in response["downstream_black_list"]`
loop.  After each pattern, if the local downstream view is empty and
`llm_parameters.stream` holds, the response is replaced by the synthesized
stream (lines 169–178); evaluating `response["text"]` with no `text` key
raises a `KeyError`, which aborts the request (`err := true`). -/
def black_list_loop (stream : Bool) (n : Node) (text? : Option (List Char)) :
    List BlackPattern → BlackSt → BlackSt
  | [], st => st
  | p :: ps, st =>
    let pr := prune_black_node n p st.ds st.graph
    if pr.1.isEmpty && stream then
      match text? with
      | some t =>
          black_list_loop stream n text? ps
            ⟨pr.1, pr.2.1, some (fake_stream t), st.logs + pr.2.2, false⟩
      | none => ⟨pr.1, pr.2.1, st.override, st.logs + pr.2.2, true⟩
    else
      black_list_loop stream n text? ps
        ⟨pr.1, pr.2.1, st.override, st.logs + pr.2.2, false⟩

/-- The per-request scheduler state: the runtime graph, `result_dict`, the
pending task set (node names), the event trace, the `pending_update(True)` /
`pending_update(False)` counts performed by `schedule` itself, the number of
`logger.error` calls, and whether an exception has propagated out of the
scheduling loop. -/
structure Sched where
  graph : Graph
  resultDict : List (Node × Resp)
  pending : List Node
  trace : List Ev
  incs : Nat
  schedDecs : Nat
  logs : Nat
  errored : Bool

/-- Lines 154–178: the whole black-list stage for one completed node, on the
local downstream view `runtime_graph.downstream(node)` (line 155):
`isinstance(response, StreamingResponse)` and the `"downstream_black_list" in
response` test route a streaming response, or a structured one without the
key, past the loop untouched. -/
def black_stage (stream : Bool) (g : Graph) (n : Node) (r : Resp) : BlackSt :=
  match r with
  | .structured (some bl) txt =>
      black_list_loop stream n txt bl ⟨downstream g n, g, none, 0, false⟩
  | _ => ⟨downstream g n, g, none, 0, false⟩

/-- Lines 150–189: processing of one completed task `(response, node)`:
record the result, compute the downstream view, apply black-list pruning and
the stream-conformance fallback, then dispatch every downstream node all of
whose predecessors in the (mutated) runtime graph are present in
`result_dict`.  The node executions' input payloads do not influence the
scheduler and are not tracked. -/
def process_completion (stream : Bool) (s : Sched) (n : Node) (r : Resp) : Sched :=
  let rd := (n, r) :: s.resultDict
  let tr := s.trace ++ [Ev.completed n]
  let bst : BlackSt := black_stage stream s.graph n r
  let rd' := match bst.override with
    | some fake => (n, fake) :: rd
    | none => rd
  if bst.err then
    { graph := bst.graph, resultDict := rd', pending := s.pending, trace := tr,
      incs := s.incs, schedDecs := s.schedDecs, logs := s.logs + bst.logs, errored := true }
  else
    let ready := bst.ds.filter fun d =>
      (predecessors bst.graph d).all fun i => (alookup rd' i).isSome
    { graph := bst.graph, resultDict := rd', pending := s.pending ++ ready,
      trace := tr ++ ready.map Ev.dispatched,
      incs := s.incs, schedDecs := s.schedDecs, logs := s.logs + bst.logs, errored := false }

/-- One `asyncio.wait(..., FIRST_COMPLETED)` round: the oracle names which
pending task completed; its response is given by the response oracle `resp`.
A choice that names no pending task changes nothing. -/
def sched_step (stream : Bool) (resp : Node → Resp) (s : Sched) (c : Node) : Sched :=
  if s.errored then s
  else if c ∈ s.pending then
    process_completion stream { s with pending := s.pending.erase c } c (resp c)
  else s

def sched_loop (stream : Bool) (resp : Node → Resp) : List Node → Sched → Sched
  | [], s => s
  | c :: cs, s => sched_loop stream resp cs (sched_step stream resp s c)

/-- Lines 128–146: request start.  `pending_update(True)` once, the runtime
graph is a deep copy of the template, and one `execute` task is created per
root (`ind_nodes`). -/
def sched_start (g : Graph) : Sched :=
  { graph := g, resultDict := [], pending := ind_nodes g,
    trace := (ind_nodes g).map Ev.dispatched,
    incs := 1, schedDecs := 0, logs := 0, errored := false }

/-- Lines 128–204: the whole `schedule`.  After the event loop, the runtime
graph is pruned to the nodes reachable from the roots (lines 190–199) and,
when not streaming, `pending_update(False)` is called (lines 201–202).  When
an exception propagated out of the loop, none of that epilogue runs. -/
def schedule (g : Graph) (stream : Bool) (resp : Node → Resp) (choices : List Node) : Sched :=
  let s := sched_loop stream resp choices (sched_start g)
  if s.errored then s
  else
    let keep := (ind_nodes g).foldl (fun acc i => acc ++ [i] ++ all_downstreams s.graph i) []
    let g' := (s.graph.map Prod.fst).foldl
      (fun h node => if node ∈ keep then h else delete_node_if_exists h node) s.graph
    { s with graph := g', schedDecs := s.schedDecs + (if stream then 0 else 1) }

/-! ### Wire-format helpers (lines 406–428) -/

def doneEvent : List Char := "data: [DONE]\n\n".toList

/-- `str.replace("\\n", "\n")` (line 425): left-to-right, non-overlapping
replacement of the two-character sequence backslash-`n` by a newline. -/
def lf_unescape : List Char → List Char
  | [] => []
  | [c] => [c]
  | c :: d :: rest =>
    if c = bslash ∧ d = 'n' then '\n' :: lf_unescape rest
    else c :: lf_unescape (d :: rest)

/-- UTF-8 encoding of one unicode scalar (`str.encode("utf-8")`). -/
def utf8Char (c : Char) : List Nat :=
  let n := c.toNat
  if n < 128 then [n]
  else if n < 2048 then [192 + n / 64, 128 + n % 64]
  else if n < 65536 then [224 + n / 4096, 128 + n / 64 % 64, 128 + n % 64]
  else [240 + n / 262144, 128 + n / 4096 % 64, 128 + n / 64 % 64, 128 + n % 64]

def utf8Encode (t : List Char) : List Nat := (t.map utf8Char).flatten

def hexDigit (n : Nat) : Char := if n < 10 then Char.ofNat (48 + n) else Char.ofNat (87 + n)

/-- One byte of Python `repr(bytes)`: the quote character and the backslash
are backslash-escaped, tab, newline and carriage return become `\t`, `\n`,
`\r`, printable ASCII stands for itself, and everything else becomes a
two-digit hex escape. -/
def escByte (q : Char) (b : Nat) : List Char :=
  if b = 92 then [bslash, bslash]
  else if b = q.toNat then [bslash, q]
  else if b = 9 then [bslash, 't']
  else if b = 10 then [bslash, 'n']
  else if b = 13 then [bslash, 'r']
  else if 32 ≤ b ∧ b ≤ 126 then [Char.ofNat b]
  else [bslash, 'x', hexDigit (b / 16), hexDigit (b % 16)]

/-- Python `repr` of a bytes object: `b` + quote + escaped bytes + quote,
where the quote is a double quote exactly when the bytes contain a single
quote but no double quote. -/
def pyBytesRepr (bs : List Nat) : List Char :=
  let q := if 39 ∈ bs ∧ ¬ (34 ∈ bs) then dquote else squote
  'b' :: q :: ((bs.map (escByte q)).flatten ++ [q])

/-- Line 425: the framed event `token_generator` emits for one token:
`"data: " + repr(token.replace("\\n", "\n").encode("utf-8")) + "\n\n"`. -/
def frame_token (t : List Char) : List Char :=
  "data: ".toList ++ pyBytesRepr (utf8Encode (lf_unescape t)) ++ "\n\n".toList

def sseOpen1 : List Char := "data: b".toList ++ [squote]
def sseOpen2 : List Char := "data: b".toList ++ [dquote]
def sseClose1 : List Char := squote :: "\n\n".toList
def sseClose2 : List Char := dquote :: "\n\n".toList

/-- Lines 406–417: `extract_chunk_str`.  `data: [DONE]\n\n` maps to the empty
string; otherwise one `data: b'`/`data: b"` prefix (8 characters) and one
`'\n\n`/`"\n\n` suffix (3 characters) are stripped when present
(`startswith`/`endswith` rendered as take/drop equalities). -/
def extract_chunk_str (s : List Char) : List Char :=
  if s = doneEvent then []
  else
    let s1 := if s.take 8 = sseOpen1 ∨ s.take 8 = sseOpen2 then s.drop 8 else s
    if s1.drop (s1.length - 3) = sseClose1 ∨ s1.drop (s1.length - 3) = sseClose2 then
      s1.take (s1.length - 3)
    else s1

/-- `\s` of `re` on the characters in scope (ASCII whitespace). -/
def isPySpace (c : Char) : Bool :=
  c == ' ' || c == '\t' || c == '\n' || c == '\r' || c == Char.ofNat 11 || c == Char.ofNat 12

/-- `re.findall(r"\s?\S+\s?", sentence)` (line 422): each match is an
optional single leading whitespace character, a maximal nonempty run of
non-whitespace, and an optional single trailing whitespace character; at a
position where no match starts the scan advances one character.  Fuel-driven
(every step consumes at least one character). -/
def pyTokenizeFuel : Nat → List Char → List (List Char)
  | 0, _ => []
  | _ + 1, [] => []
  | fuel + 1, c :: rest =>
    if isPySpace c then
      match rest with
      | [] => []
      | d :: _ =>
        if isPySpace d then pyTokenizeFuel fuel rest
        else
          let run := rest.takeWhile (fun x => !isPySpace x)
          let rest' := rest.dropWhile (fun x => !isPySpace x)
          match rest' with
          | [] => [c :: run]
          | e :: rest'' => (c :: (run ++ [e])) :: pyTokenizeFuel fuel rest''
    else
      let run := (c :: rest).takeWhile (fun x => !isPySpace x)
      let rest' := (c :: rest).dropWhile (fun x => !isPySpace x)
      match rest' with
      | [] => [run]
      | e :: rest'' => (run ++ [e]) :: pyTokenizeFuel fuel rest''

def pyTokenize (s : List Char) : List (List Char) := pyTokenizeFuel (s.length + 1) s

/-- Lines 419–428: `token_generator` — frame every token of the sentence and,
on the last flush, append the terminal `data: [DONE]\n\n` event.  The
token-latency metric updates are not observable here and are omitted. -/
def token_generator (sentence : List Char) (isLast : Bool) : List (List Char) :=
  (pyTokenize sentence).map frame_token ++ (if isLast then [doneEvent] else [])

/-! ### The stream stitcher `generate` (lines 299–350), forward-through-downstream mode -/

/-- Line 296: the sentence-terminator set (`.` `?` `!` `。` `，` `！`). -/
def hitted_ends : List Char :=
  ['.', '?', '!', Char.ofNat 12290, Char.ofNat 65292, Char.ofNat 65281]

inductive StreamErr where
  | unsupportedResponse
deriving DecidableEq

/-- Stitcher state: the character buffer, the emitted events, the bodies of
the flush POSTs to the downstream endpoint, the number of
`pending_update(False)` calls, and the raised error, if any. -/
structure Stitch where
  buffer : List Char
  events : List (List Char)
  posts : List (List Char)
  decs : Nat
  err : Option StreamErr

/-- Lines 305–343, one upstream chunk in forward-through-downstream mode:
an empty chunk is skipped (`if chunk:`); otherwise its framing is stripped
and appended to the buffer; the buffer is flushed — POST `{"text": buffer}`
downstream, modelled by the reply oracle `dsReply` where `none` stands for a
JSON reply without a `text` key — when the buffer's last character is a
sentence terminator or the chunk ends with `[DONE]\n\n`; a reply without
`text` raises (line 337), which ends the stream. -/
def stitch_chunk (dsReply : List Char → Option (List Char)) (st : Stitch)
    (chunk : List Char) : Stitch :=
  if chunk.isEmpty then st
  else
    let buf := st.buffer ++ extract_chunk_str chunk
    let isLast := chunk.drop (chunk.length - 8) = "[DONE]\n\n".toList
    if (buf ≠ [] ∧ buf.getLastD ' ' ∈ hitted_ends) ∨ isLast then
      match dsReply buf with
      | none =>
        { st with buffer := buf, posts := st.posts ++ [buf],
                  err := some StreamErr.unsupportedResponse }
      | some txt =>
        { st with buffer := [], posts := st.posts ++ [buf],
                  events := st.events ++ token_generator txt isLast }
    else { st with buffer := buf }

def stitch_start : Stitch := { buffer := [], events := [], posts := [], decs := 0, err := none }

/-- Lines 299–350: the downstream-forwarding `generate` body over the whole
upstream chunk sequence.  `metrics.request_update` / `metrics.pending_update(False)`
(lines 349–350) run after the `for` loop, so they are reached only when no
exception was raised: on a raise the generator exits with `decs` untouched. -/
def generate (dsReply : List Char → Option (List Char)) (chunks : List (List Char)) : Stitch :=
  let fin := chunks.foldl
    (fun st c => if st.err.isSome then st else stitch_chunk dsReply st c) stitch_start
  if fin.err.isSome then fin else { fin with decs := fin.decs + 1 }

/-! ### `execute`'s in-place llm_parameters overlay (lines 246–253) and the
shared `initial_inputs` object (lines 140–145) -/

/-- A Python value slot: `none` is Python `None` (also what `dict.get`
returns for a missing key). -/
abbrev PyVal := Option (List Char)
abbrev PyDict := List (String × PyVal)

def pyGet (d : PyDict) (k : String) : PyVal := (alookup d k).getD none

/-- `d[k] = v`: update the existing entry or append a new one. -/
def pySet : PyDict → String → PyVal → PyDict
  | [], k, v => [(k, v)]
  | (k0, w) :: rest, k, v =>
    if k0 = k then (k, v) :: rest else (k0, w) :: pySet rest k v

/-- Lines 250–253: for every `(field, value)` of `llm_parameters.dict()`, if
`inputs.get(field) != value` then `inputs[field] = value` — an in-place
mutation of the `inputs` dict. -/
def llm_overlay (params : PyDict) (inputs : PyDict) : PyDict :=
  params.foldl (fun acc fv => if pyGet acc fv.1 = fv.2 then acc else pySet acc fv.1 fv.2) inputs

/-- A heap of Python dict objects: mutation through one reference is visible
through every alias of that reference. -/
abbrev Heap := List (Nat × PyDict)

def readRef (h : Heap) (a : Nat) : PyDict := (alookup h a).getD []

def writeRef (h : Heap) (a : Nat) (d : PyDict) : Heap := (a, d) :: h

/-- Lines 246–253 of `execute`: when the node is LLM or LVM, the overlay is
written into the caller-supplied `inputs` object itself (no copy is made). -/
def execute_overlay_inplace (isLLMorLVM : Bool) (params : PyDict) (h : Heap) (a : Nat) : Heap :=
  if isLLMorLVM then writeRef h a (llm_overlay params (readRef h a)) else h

/-- Lines 140–145: `schedule` passes the very same `initial_inputs` object to
every root task — every seeded task aliases one heap address. -/
def seed_root_tasks (roots : List Node) (a0 : Nat) : List (Node × Nat) :=
  roots.map (fun r => (r, a0))

/-! ### Concrete runs used by the pending-gauge and stitcher claims -/

/-- Total `pending_update(False)` calls performed when every response stored
in the result table is consumed by the server. -/
def resultStreamDecs (rd : List (Node × Resp)) : Nat :=
  (rd.map (fun p => respConsumeDecs p.2)).sum

/-- A black-list pattern matching exactly the node `X`. -/
def patX : BlackPattern := ⟨true, fun d => d == "X"⟩

/-- Response oracle: every node answers a structured payload with
`downstream_black_list = ["X"]` and `text = "ok"`. -/
def respC4 : Node → Resp := fun _ => .structured (some [patX]) (some "ok".toList)

/-- The streaming request `G → X` whose only completion black-lists `X`:
the stream-conformance fallback replaces `result_dict["G"]`. -/
def schedC4 : Sched := schedule [("G", ["X"]), ("X", [])] true respC4 ["G"]

/-- An invalid black-list pattern (e.g. `"("`): `re.findall` raises
`re.error` whenever it is applied. -/
def invalidPat : BlackPattern := ⟨false, fun _ => false⟩

/-- Response oracle: structured payload with the single invalid pattern and
no `text` field. -/
def respC6 : Node → Resp := fun _ => .structured (some [invalidPat]) none

/-- Response oracle: structured payload `{"text": "ok"}` with no
`downstream_black_list` key. -/
def respC7 : Node → Resp := fun _ => .structured none (some "ok".toList)

/-- The downstream service echoes the posted text back. -/
def echoReply : List Char → Option (List Char) := fun b => some b

/-- A downstream service whose JSON reply has no `text` key. -/
def replyNoText : List Char → Option (List Char) := fun _ => none

/-- The upstream chunk sequence of the streaming-stitch scenario: five framed
tokens `Hi`, ` there`, `.`, ` How`, `?`, then the `[DONE]` terminator. -/
def c9Chunks : List (List Char) :=
  [frame_token "Hi".toList, frame_token " there".toList, frame_token ".".toList,
   frame_token " How".toList, frame_token "?".toList, doneEvent]

/-- C4 (code_bug): on the stream-conformance fallback path the pending gauge
is never balanced.  For the request `G → X` with `stream = true` where `G`'s
completion black-lists `X`: `schedule` performs its single
`pending_update(True)` (`incs = 1`), reaches its normal end without error,
performs no `pending_update(False)` itself (line 201 skips it because
`llm_parameters.stream` is true), and the only stored response is the
synthesized `fake_stream`, whose generator performs no `pending_update`
either — so the total decrement count for this exit path is 0, not the
exactly-once the claim states. -/
theorem schedule_pending_gauge_leak :
    schedC4.incs = 1 ∧ schedC4.errored = false ∧ schedC4.schedDecs = 0 ∧
    alookup schedC4.resultDict "G" = some (fake_stream "ok".toList) ∧
    resultStreamDecs schedC4.resultDict = 0 := by
  refine ⟨rfl, rfl, rfl, rfl, rfl⟩

/-- C8 (code_bug): when the downstream stitcher's JSON reply has no `text`
key, `generate` raises (spec: `UnsupportedResponseError`) and the stream is
fatal — no events are emitted after the failing flush — but the pending
gauge is NOT decremented: lines 349–350 sit after the `for` loop, not in a
`finally`, so the raise skips them (`decs = 0`, while the claim and §7 of
the spec require a decrement on this failure path). -/
theorem generate_missing_text_fatal :
    (generate replyNoText [frame_token "Hi".toList, frame_token ".".toList]).err
        = some StreamErr.unsupportedResponse ∧
    (generate replyNoText [frame_token "Hi".toList, frame_token ".".toList]).events = [] ∧
    (generate replyNoText [frame_token "Hi".toList, frame_token ".".toList]).posts
        = ["Hi.".toList] ∧
    (generate replyNoText [frame_token "Hi".toList, frame_token ".".toList]).decs = 0 := by
  refine ⟨rfl, rfl, rfl, rfl⟩

/-- C9 counterexample: in the five-token scenario the stitcher flushes
THREE times, not twice as the claim states — the terminal `[DONE]` chunk
satisfies the `is_last` disjunct of the flush condition with an empty
buffer, so a third POST with body `{"text": ""}` is issued. -/
theorem generate_flush_count_cex :
    (generate echoReply c9Chunks).posts = ["Hi there.".toList, " How?".toList, []] ∧
    ["Hi there.".toList, " How?".toList, []] ≠ ["Hi there.".toList, " How?".toList] := by
  exact ⟨rfl, by decide⟩

/-- C9 amended: with an echoing downstream, the five-token scenario flushes
exactly three times — `{"text": "Hi there."}` after `.`, `{"text": " How?"}`
after `?`, and `{"text": ""}` on the `[DONE]` chunk; every returned text is
re-tokenized by `\s?\S+\s?` and re-emitted framed, and the final emitted
event is `data: [DONE]\n\n`; the stream ends cleanly and decrements the
pending gauge once. -/
theorem generate_flush_trace :
    (generate echoReply c9Chunks).posts = ["Hi there.".toList, " How?".toList, []] ∧
    (generate echoReply c9Chunks).events
      = [frame_token "Hi ".toList, frame_token "there.".toList,
         frame_token " How?".toList, doneEvent] ∧
    (generate echoReply c9Chunks).events.getLast? = some doneEvent ∧
    (generate echoReply c9Chunks).err = none ∧
    (generate echoReply c9Chunks).decs = 1 := by
  refine ⟨rfl, ?_, rfl, rfl, rfl⟩
  rfl

/-- C5 counterexample: for the one-character token `\` (a backslash),
`repr(b'\\')` escapes the byte, and `extract_chunk_str` strips only the
framing, returning the two-character string `\\` — the round trip is not
the identity. -/
theorem round_trip_framing_cex :
    extract_chunk_str (frame_token [bslash]) = [bslash, bslash] ∧
    [bslash, bslash] ≠ [bslash] := by
  exact ⟨rfl, by decide⟩

/-- C6 counterexample: a completed leaf node (`downstreams` empty) with
`stream = true` whose structured response carries the single invalid
pattern `"("` and no `text` field.  `re.findall` is never reached (there is
no downstream to match against), so nothing is logged (`logs = 0`), and the
stream-conformance fallback's `response["text"]` raises a `KeyError` that
propagates out of the scheduling loop (`errored = true`) — against the
claim, the request does not continue and no error is logged. -/
theorem invalid_pattern_cex :
    (schedule [("G", [])] true respC6 ["G"]).errored = true ∧
    (schedule [("G", [])] true respC6 ["G"]).logs = 0 := by
  exact ⟨rfl, rfl⟩

/-- C7 counterexample: a completed leaf node with `stream = true` whose
response is the structured payload `{"text": "ok"}` WITHOUT a
`downstream_black_list` key: the fallback lives inside the
`for black_node in response["downstream_black_list"]` loop, so
`result_dict["G"]` keeps the structured payload and is not replaced by the
synthesized stream, although the claim's conditions (no remaining
downstream, stream on, non-stream payload with `text`) all hold. -/
theorem stream_fallback_cex :
    alookup (schedule [("G", [])] true respC7 ["G"]).resultDict "G"
      = some (Resp.structured none (some "ok".toList)) ∧
    Resp.structured none (some "ok".toList) ≠ fake_stream "ok".toList := by
  refine ⟨rfl, ?_⟩
  intro h
  exact Resp.noConfusion h

/-! ### C10: the overlay mutates the shared inputs object -/

theorem alookup_pySet (d : PyDict) (k k' : String) (v : PyVal) :
    alookup (pySet d k v) k' = if k = k' then some v else alookup d k' := by
  induction d with
  | nil => simp [pySet, alookup]
  | cons p rest ih =>
    obtain ⟨k0, w⟩ := p
    by_cases h : k0 = k
    · subst h
      by_cases h' : k0 = k' <;> simp [pySet, alookup, h', ih]
    · have hps : pySet ((k0, w) :: rest) k v = (k0, w) :: pySet rest k v := by
        simp [pySet, h]
      rw [hps]
      by_cases h' : k0 = k'
      · have hkk : k ≠ k' := fun hh => h (hh.trans h'.symm).symm
        simp [alookup, h', hkk]
      · simp [alookup, h', ih]

theorem pyGet_pySet_self (d : PyDict) (k : String) (v : PyVal) :
    pyGet (pySet d k v) k = v := by
  simp [pyGet, alookup_pySet]

theorem pyGet_pySet_ne (d : PyDict) (k k' : String) (v : PyVal) (h : k' ≠ k) :
    pyGet (pySet d k v) k' = pyGet d k' := by
  simp [pyGet, alookup_pySet, Ne.symm h]

/-- The single overlay step for one `(field, value)` pair leaves every other
key unchanged. -/
theorem overlay_step_other (d : PyDict) (fv : String × PyVal) (k : String) (h : k ≠ fv.1) :
    pyGet (if pyGet d fv.1 = fv.2 then d else pySet d fv.1 fv.2) k = pyGet d k := by
  by_cases he : pyGet d fv.1 = fv.2
  · simp [he]
  · simp [he, pyGet_pySet_ne _ _ _ _ h]

/-- After the overlay, every parameter field of a duplicate-free
`llm_parameters.dict()` holds its parameter value. -/
theorem llm_overlay_get (params : PyDict) (f : String) (v : PyVal) :
    ∀ (d : PyDict), (f, v) ∈ params → (params.map Prod.fst).Nodup →
      pyGet (llm_overlay params d) f = v := by
  induction params with
  | nil => intro d h; exact absurd h (List.not_mem_nil _)
  | cons fv ps ih =>
    intro d hmem hnd
    have hnd' : (ps.map Prod.fst).Nodup := (List.nodup_cons.mp hnd).2
    rcases List.mem_cons.mp hmem with heq | htail
    · subst heq
      have hhead : f ∉ ps.map Prod.fst := by
        have h2 := hnd
        rw [List.map_cons] at h2
        exact (List.nodup_cons.mp h2).1
      have hout : ∀ q ∈ ps, q.1 ≠ f := by
        intro q hq hqf
        have : q.1 ∈ ps.map Prod.fst := List.mem_map_of_mem Prod.fst hq
        exact hhead (hqf ▸ this)
      have hstep : pyGet (if pyGet d f = v then d else pySet d f v) f = v := by
        by_cases he : pyGet d f = v
        · simp [he]
        · simp [he, pyGet_pySet_self]
      -- the remaining folds touch only other keys
      clear ih hmem hnd hnd' hhead
      generalize hd1 : (if pyGet d f = v then d else pySet d f v) = d1 at hstep
      rw [show llm_overlay ((f, v) :: ps) d = llm_overlay ps d1 by
        simp [llm_overlay, hd1.symm]]
      clear hd1
      induction ps generalizing d1 with
      | nil => simpa [llm_overlay] using hstep
      | cons q qs ihq =>
        have hq1 : q.1 ≠ f := hout q (List.mem_cons_self q qs)
        have : pyGet (if pyGet d1 q.1 = q.2 then d1 else pySet d1 q.1 q.2) f = v := by
          rw [overlay_step_other d1 q f (fun hh => hq1 hh.symm)]; exact hstep
        have hout' : ∀ r ∈ qs, r.1 ≠ f := fun r hr => hout r (List.mem_cons_of_mem q hr)
        simpa [llm_overlay] using
          ihq hout' (if pyGet d1 q.1 = q.2 then d1 else pySet d1 q.1 q.2) this
    · have : llm_overlay (fv :: ps) d
          = llm_overlay ps (if pyGet d fv.1 = fv.2 then d else pySet d fv.1 fv.2) := by
        simp [llm_overlay]
      rw [this]
      exact ih _ htail hnd'

/-- C10: `execute` writes the llm_parameters overlay into the caller-supplied
inputs mapping in place (a heap write through the shared reference, not a
copy), and since `schedule` seeds every root task with the very same
`initial_inputs` object, after one LLM/LVM root executes, the mapping every
other root observes through the shared address is the mutated one — which
differs from the original whenever some parameter field disagreed. -/
theorem execute_overlay_shared_inputs
    (h : Heap) (a0 : Nat) (r1 r2 : Node) (params : PyDict)
    (hnd : (params.map Prod.fst).Nodup)
    (f : String) (v : PyVal) (hf : (f, v) ∈ params)
    (hne : pyGet (readRef h a0) f ≠ v) :
    seed_root_tasks [r1, r2] a0 = [(r1, a0), (r2, a0)] ∧
    readRef (execute_overlay_inplace true params h a0) a0
      = llm_overlay params (readRef h a0) ∧
    pyGet (readRef (execute_overlay_inplace true params h a0) a0) f = v ∧
    readRef (execute_overlay_inplace true params h a0) a0 ≠ readRef h a0 := by
  have hread : readRef (execute_overlay_inplace true params h a0) a0
      = llm_overlay params (readRef h a0) := by
    simp [execute_overlay_inplace, writeRef, readRef, alookup]
  have hget : pyGet (readRef (execute_overlay_inplace true params h a0) a0) f = v := by
    rw [hread]; exact llm_overlay_get params f v (readRef h a0) hf hnd
  refine ⟨rfl, hread, hget, ?_⟩
  intro heq
  exact hne (heq ▸ hget)

/-- Witness for C10: overlaying `{"stream": "true"}` onto an initially empty
shared inputs dict mutates it. -/
theorem execute_overlay_shared_inputs_witness :
    seed_root_tasks ["A", "B"] 0 = [("A", 0), ("B", 0)] ∧
    readRef (execute_overlay_inplace true [("stream", some "true".toList)] [] 0) 0
      = llm_overlay [("stream", some "true".toList)] (readRef [] 0) ∧
    pyGet (readRef (execute_overlay_inplace true [("stream", some "true".toList)] [] 0) 0)
      "stream" = some "true".toList ∧
    readRef (execute_overlay_inplace true [("stream", some "true".toList)] [] 0) 0
      ≠ readRef ([] : Heap) 0 :=
  execute_overlay_shared_inputs [] 0 "A" "B" [("stream", some "true".toList)]
    (by decide) "stream" (some "true".toList) (by simp) (by decide)

/-! ### C5: round-trip framing -/

theorem lf_unescape_eq_self : ∀ (t : List Char), bslash ∉ t → lf_unescape t = t
  | [], _ => rfl
  | [_], _ => rfl
  | c :: d :: rest, h => by
    have hc : ¬ (c = bslash ∧ d = 'n') := by
      rintro ⟨hc, -⟩
      exact h (hc ▸ List.mem_cons_self _ _)
    have hrest : bslash ∉ d :: rest := fun hm => h (List.mem_cons_of_mem _ hm)
    show (if c = bslash ∧ d = 'n' then '\n' :: lf_unescape rest
          else c :: lf_unescape (d :: rest)) = c :: d :: rest
    rw [if_neg hc, lf_unescape_eq_self (d :: rest) hrest]

theorem utf8Char_ascii (c : Char) (h : c.toNat < 128) : utf8Char c = [c.toNat] := by
  simp [utf8Char, h]

theorem utf8Encode_ascii (t : List Char) (h : ∀ c ∈ t, c.toNat < 128) :
    utf8Encode t = t.map Char.toNat := by
  induction t with
  | nil => rfl
  | cons c rest ih =>
    have hc := h c (List.mem_cons_self _ _)
    have hr : ∀ x ∈ rest, x.toNat < 128 := fun x hx => h x (List.mem_cons_of_mem _ hx)
    rw [show utf8Encode (c :: rest) = utf8Char c ++ utf8Encode rest by simp [utf8Encode]]
    rw [utf8Char_ascii c hc, ih hr, List.map_cons]
    rfl

theorem escByte_printable (q : Char) (b : Nat) (h32 : 32 ≤ b) (h126 : b ≤ 126)
    (hbs : b ≠ 92) (hq : b ≠ q.toNat) : escByte q b = [Char.ofNat b] := by
  have h9 : b ≠ 9 := by omega
  have h10 : b ≠ 10 := by omega
  have h13 : b ≠ 13 := by omega
  simp [escByte, hbs, hq, h9, h10, h13, h32, h126]

/-- A character of a printable token is recovered from its code. -/
theorem char_of_toNat_eq (c : Char) (n : Nat) (h : c.toNat = n) : c = Char.ofNat n := by
  rw [← h, Char.ofNat_toNat]

theorem pyBytesRepr_printable (t : List Char)
    (hascii : ∀ c ∈ t, 32 ≤ c.toNat ∧ c.toNat ≤ 126 ∧ c ≠ bslash)
    (hq : ¬ (squote ∈ t ∧ dquote ∈ t)) :
    ∃ q, (q = squote ∨ q = dquote) ∧
      pyBytesRepr (t.map Char.toNat) = 'b' :: q :: (t ++ [q]) := by
  set bs := t.map Char.toNat with hbs
  have hmem : ∀ b ∈ bs, ∃ c ∈ t, c.toNat = b := by
    intro b hb
    rcases List.mem_map.mp hb with ⟨c, hc, hcb⟩
    exact ⟨c, hc, hcb⟩
  have hnot92 : ∀ b ∈ bs, b ≠ 92 := by
    intro b hb hb92
    rcases hmem b hb with ⟨c, hc, hcb⟩
    exact (hascii c hc).2.2 (char_of_toNat_eq c 92 (hcb.trans hb92))
  set q := if 39 ∈ bs ∧ ¬ (34 ∈ bs) then dquote else squote with hqdef
  have hqn : ∀ b ∈ bs, b ≠ q.toNat := by
    by_cases hcond : 39 ∈ bs ∧ ¬ (34 ∈ bs)
    · intro b hb hbq
      rw [hqdef, if_pos hcond] at hbq
      exact hcond.2 (by
        have : b = 34 := by simpa [dquote] using hbq
        exact this ▸ hb)
    · intro b hb hbq
      rw [hqdef, if_neg hcond] at hbq
      have hb39 : b = 39 := by simpa [squote] using hbq
      rcases not_and_or.mp hcond with h39 | h34
      · exact h39 (hb39 ▸ hb)
      · -- a double quote occurs, so by `hq` no single quote may occur
        have hdq : dquote ∈ t := by
          rcases hmem 34 (not_not.mp h34) with ⟨c, hc, hcb⟩
          have hcd : c = dquote := char_of_toNat_eq c 34 hcb
          exact hcd ▸ hc
        have hsq : squote ∈ t := by
          rcases hmem b hb with ⟨c, hc, hcb⟩
          have hcs : c = squote := char_of_toNat_eq c 39 (hcb.trans hb39)
          exact hcs ▸ hc
        exact hq ⟨hsq, hdq⟩
  refine ⟨q, ?_, ?_⟩
  · rw [hqdef]
    by_cases hcond : 39 ∈ bs ∧ ¬ (34 ∈ bs) <;> simp [hcond]
  · have hescs : bs.map (escByte q) = bs.map (fun b => [Char.ofNat b]) := by
      apply List.map_congr_left
      intro b hb
      rcases hmem b hb with ⟨c, hc, hcb⟩
      exact escByte_printable q b (hcb ▸ (hascii c hc).1) (hcb ▸ (hascii c hc).2.1)
        (hnot92 b hb) (hqn b hb)
    have hflat : (bs.map (fun b => [Char.ofNat b])).flatten = bs.map Char.ofNat := by
      induction bs with
      | nil => rfl
      | cons b rest ih => simp [ih]
    have hback : bs.map Char.ofNat = t := by
      rw [hbs, List.map_map]
      have : ∀ c ∈ t, (Char.ofNat ∘ Char.toNat) c = id c := by
        intro c _
        simp [Char.ofNat_toNat]
      rw [List.map_congr_left this, List.map_id]
    show pyBytesRepr bs = 'b' :: q :: (t ++ [q])
    rw [pyBytesRepr]
    rw [← hqdef, hescs, hflat, hback]

/-- C5 (amended): for a token whose characters are printable ASCII
(32–126), contain no backslash, and do not include both a single and a
double quote (and, as in the original claim, the token does not contain
`[DONE]`), `extract_chunk_str` applied to the framed event produced by
`token_generator` returns the token unchanged.  Outside this range the
round trip fails because `repr(bytes)` escapes and `extract_chunk_str`
does not unescape (see the counterexample). -/
theorem round_trip_framing_printable (t : List Char)
    (hascii : ∀ c ∈ t, 32 ≤ c.toNat ∧ c.toNat ≤ 126 ∧ c ≠ bslash)
    (hq : ¬ (squote ∈ t ∧ dquote ∈ t))
    (hdone : ∀ i < t.length, (t.drop i).take 6 ≠ "[DONE]".toList) :
    extract_chunk_str (frame_token t) = t := by
  clear hdone
  have hnb : bslash ∉ t := fun hm => (hascii bslash hm).2.2 rfl
  have h128 : ∀ c ∈ t, c.toNat < 128 := fun c hc => by
    have := (hascii c hc).2.1; omega
  obtain ⟨q, hqor, hrepr⟩ := pyBytesRepr_printable t hascii hq
  have hframe : frame_token t
      = ("data: ".toList ++ ['b', q]) ++ (t ++ [q, '\n', '\n']) := by
    rw [frame_token, lf_unescape_eq_self t hnb, utf8Encode_ascii t h128, hrepr]
    simp
  have hprelen : ("data: ".toList ++ ['b', q]).length = 8 := by simp
  have hne : frame_token t ≠ doneEvent := by
    intro h
    have h6 : (frame_token t).get? 6 = doneEvent.get? 6 := by rw [h]
    rw [hframe] at h6
    rw [List.get?_append (by simp)] at h6
    have : ("data: ".toList ++ ['b', q]).get? 6 = some 'b' := by
      rw [List.get?_append_right (by simp)]
      simp
    rw [this] at h6
    have : ('b' : Char) = '[' := by
      have hd : doneEvent.get? 6 = some '[' := by decide
      rw [hd] at h6
      exact Option.some.inj h6
    exact absurd this (by decide)
  have htake : (frame_token t).take 8 = "data: ".toList ++ ['b', q] := by
    rw [hframe]
    exact List.take_left' hprelen
  have hdrop : (frame_token t).drop 8 = t ++ [q, '\n', '\n'] := by
    rw [hframe]
    exact List.drop_left' hprelen
  have hopen : (frame_token t).take 8 = sseOpen1 ∨ (frame_token t).take 8 = sseOpen2 := by
    rcases hqor with hq1 | hq2
    · left
      rw [htake, hq1]
      decide
    · right
      rw [htake, hq2]
      decide
  have hs1len : (t ++ [q, '\n', '\n']).length - 3 = t.length := by simp
  have hsufdrop : (t ++ [q, '\n', '\n']).drop t.length = [q, '\n', '\n'] :=
    List.drop_left t [q, '\n', '\n']
  have hclose : (t ++ [q, '\n', '\n']).drop ((t ++ [q, '\n', '\n']).length - 3) = sseClose1 ∨
      (t ++ [q, '\n', '\n']).drop ((t ++ [q, '\n', '\n']).length - 3) = sseClose2 := by
    rw [hs1len, hsufdrop]
    rcases hqor with hq1 | hq2
    · left; rw [hq1]; decide
    · right; rw [hq2]; decide
  rw [extract_chunk_str, if_neg hne]
  simp only []
  rw [if_pos hopen, hdrop, if_pos hclose, hs1len]
  exact List.take_left t [q, '\n', '\n']

/-- Witness for C5 (amended): the token `ok` round-trips. -/
theorem round_trip_framing_printable_witness :
    extract_chunk_str (frame_token "ok".toList) = "ok".toList :=
  round_trip_framing_printable "ok".toList (by decide) (by decide) (by decide)

/-! ### C6 and C7: invalid patterns and the stream-conformance fallback -/

theorem black_list_loop_all_invalid (stream : Bool) (n : Node) :
    ∀ (bl : List BlackPattern) (txt : Option (List Char)) (st : BlackSt),
      (∀ p ∈ bl, p.valid = false) → st.err = false →
      (st.ds ≠ [] ∨ stream = false ∨ txt.isSome) →
      (black_list_loop stream n txt bl st).ds = st.ds ∧
      (black_list_loop stream n txt bl st).graph = st.graph ∧
      (black_list_loop stream n txt bl st).err = false
  | [], _, _, _, herr, _ => ⟨rfl, rfl, herr⟩
  | p :: ps, none, st, hinv, _, hok => by
    have hp : p.valid = false := hinv p (List.mem_cons_self _ _)
    have hinv' : ∀ q ∈ ps, q.valid = false := fun q hq => hinv q (List.mem_cons_of_mem _ hq)
    have hpr : prune_black_node n p st.ds st.graph = (st.ds, st.graph, st.ds.length) := by
      simp [prune_black_node, hp]
    rw [black_list_loop, hpr]
    by_cases hfire : st.ds.isEmpty && stream
    · exfalso
      have hsplit : st.ds = [] ∧ stream = true := by
        simpa [List.isEmpty_iff] using hfire
      rcases hok with h | h | h
      · exact h hsplit.1
      · rw [hsplit.2] at h; exact absurd h (by simp)
      · exact absurd h (by simp)
    · rw [if_neg hfire]
      exact black_list_loop_all_invalid stream n ps none
        ⟨st.ds, st.graph, st.override, st.logs + st.ds.length, false⟩
        hinv' rfl (by
          rcases hok with h | h | h
          · exact Or.inl h
          · exact Or.inr (Or.inl h)
          · exact Or.inr (Or.inr h))
  | p :: ps, some t, st, hinv, _, hok => by
    have hp : p.valid = false := hinv p (List.mem_cons_self _ _)
    have hinv' : ∀ q ∈ ps, q.valid = false := fun q hq => hinv q (List.mem_cons_of_mem _ hq)
    have hpr : prune_black_node n p st.ds st.graph = (st.ds, st.graph, st.ds.length) := by
      simp [prune_black_node, hp]
    rw [black_list_loop, hpr]
    by_cases hfire : st.ds.isEmpty && stream
    · rw [if_pos hfire]
      exact black_list_loop_all_invalid stream n ps (some t)
        ⟨st.ds, st.graph, some (fake_stream t), st.logs + st.ds.length, false⟩
        hinv' rfl (Or.inr (Or.inr (by simp)))
    · rw [if_neg hfire]
      exact black_list_loop_all_invalid stream n ps (some t)
        ⟨st.ds, st.graph, st.override, st.logs + st.ds.length, false⟩
        hinv' rfl (by
          rcases hok with h | h | h
          · exact Or.inl h
          · exact Or.inr (Or.inl h)
          · exact Or.inr (Or.inr h))

/-- C6 (amended): an invalid black-list pattern deletes no edge and leaves
the downstream view intact — `re.error` is caught per downstream still in
view and logged that many times (hence not at all for a leaf node) — and
when every pattern of the list is invalid, the runtime graph is unchanged
and no exception propagates, PROVIDED the completing node still has a
downstream, or streaming is off, or the response has a `text` field; in the
remaining corner (leaf node, streaming, no `text`) the stream-conformance
fallback's `response["text"]` raises a `KeyError` that aborts the request
(see the counterexample). -/
theorem invalid_pattern_skipped :
    (∀ (n : Node) (p : BlackPattern) (ds : List Node) (g : Graph),
       p.valid = false → prune_black_node n p ds g = (ds, g, ds.length)) ∧
    (∀ (stream : Bool) (s : Sched) (n : Node) (bl : List BlackPattern)
       (txt : Option (List Char)),
       (∀ p ∈ bl, p.valid = false) →
       (downstream s.graph n ≠ [] ∨ stream = false ∨ txt.isSome) →
       (process_completion stream s n (.structured (some bl) txt)).graph = s.graph ∧
       (process_completion stream s n (.structured (some bl) txt)).errored = false) := by
  constructor
  · intro n p ds g hp
    simp [prune_black_node, hp]
  · intro stream s n bl txt hinv hok
    have hbl := black_list_loop_all_invalid stream n bl txt
      ⟨downstream s.graph n, s.graph, none, 0, false⟩ hinv rfl hok
    rw [process_completion]
    simp only [black_stage]
    rw [if_neg (by rw [hbl.2.2]; exact Bool.false_ne_true)]
    exact ⟨hbl.2.1, rfl⟩

/-- Witness for C6 (amended): the single invalid pattern `"("` applied while
the completing node `G` still has the downstream `Y` (streaming off, no
`text`): nothing is pruned and the request continues. -/
theorem invalid_pattern_skipped_witness :
    prune_black_node "G" invalidPat ["Y"] [("G", ["Y"]), ("Y", [])]
      = (["Y"], [("G", ["Y"]), ("Y", [])], 1) ∧
    (process_completion false (sched_start [("G", ["Y"]), ("Y", [])]) "G"
        (.structured (some [invalidPat]) none)).graph
      = (sched_start [("G", ["Y"]), ("Y", [])]).graph ∧
    (process_completion false (sched_start [("G", ["Y"]), ("Y", [])]) "G"
        (.structured (some [invalidPat]) none)).errored = false := by
  refine ⟨?_, ?_⟩
  · have := invalid_pattern_skipped.1 "G" invalidPat ["Y"] [("G", ["Y"]), ("Y", [])] rfl
    simpa using this
  · exact invalid_pattern_skipped.2 false (sched_start [("G", ["Y"]), ("Y", [])]) "G"
      [invalidPat] none
      (by intro p hp; rw [List.mem_singleton.mp hp]; rfl)
      (Or.inr (Or.inl rfl))

theorem black_list_loop_noerr (stream : Bool) (n : Node) (t : List Char) :
    ∀ (bl : List BlackPattern) (st : BlackSt), st.err = false →
      (black_list_loop stream n (some t) bl st).err = false
  | [], _, herr => herr
  | p :: ps, st, _ => by
    rw [black_list_loop]
    by_cases hfire : (prune_black_node n p st.ds st.graph).1.isEmpty && stream
    · rw [if_pos hfire]
      exact black_list_loop_noerr stream n t ps _ rfl
    · rw [if_neg hfire]
      exact black_list_loop_noerr stream n t ps _ rfl

theorem black_list_loop_override_keep (stream : Bool) (n : Node) (t : List Char) :
    ∀ (bl : List BlackPattern) (st : BlackSt),
      st.override = some (fake_stream t) →
      (black_list_loop stream n (some t) bl st).override = some (fake_stream t)
  | [], _, hov => hov
  | p :: ps, st, hov => by
    rw [black_list_loop]
    by_cases hfire : (prune_black_node n p st.ds st.graph).1.isEmpty && stream
    · rw [if_pos hfire]
      exact black_list_loop_override_keep stream n t ps _ rfl
    · rw [if_neg hfire]
      exact black_list_loop_override_keep stream n t ps _ hov

theorem black_list_loop_override_fire (n : Node) (t : List Char) :
    ∀ (bl : List BlackPattern) (st : BlackSt), bl ≠ [] →
      (black_list_loop true n (some t) bl st).ds = [] →
      (black_list_loop true n (some t) bl st).override = some (fake_stream t)
  | [], _, hbl, _ => absurd rfl hbl
  | p :: ps, st, _, hds => by
    rw [black_list_loop] at hds ⊢
    by_cases hfire : (prune_black_node n p st.ds st.graph).1.isEmpty && true
    · rw [if_pos hfire]
      exact black_list_loop_override_keep true n t ps _ rfl
    · rw [if_neg hfire] at hds ⊢
      cases ps with
      | nil =>
        exfalso
        apply hfire
        have hnil : (prune_black_node n p st.ds st.graph).1 = [] := hds
        rw [hnil]
        rfl
      | cons q qs =>
        exact black_list_loop_override_fire n t (q :: qs) _ (List.cons_ne_nil _ _) hds

/-- C7 (amended): the stream-conformance fallback fires exactly from inside
the black-list loop — when the response is a structured payload whose
`downstream_black_list` is present and NONEMPTY, streaming is on, the
response has a `text` field, and after pruning no downstream node remains,
`result_dict[n]` is replaced by the synthesized stream, which emits exactly
the two events `data: b'<text>'\n\n` and `data: [DONE]\n\n`.  (With an
absent or empty black list no replacement happens; see the counterexample.) -/
theorem stream_fallback_amended (s : Sched) (n : Node) (bl : List BlackPattern) (t : List Char)
    (hbl : bl ≠ [])
    (hds : (black_list_loop true n (some t) bl
        ⟨downstream s.graph n, s.graph, none, 0, false⟩).ds = []) :
    alookup (process_completion true s n (.structured (some bl) (some t))).resultDict n
      = some (fake_stream t) ∧
    fake_stream t = Resp.streaming
      ["data: b".toList ++ [squote] ++ t ++ [squote] ++ "\n\n".toList,
       "data: [DONE]\n\n".toList] 0 := by
  have hov := black_list_loop_override_fire n t bl
    ⟨downstream s.graph n, s.graph, none, 0, false⟩ hbl hds
  have herr := black_list_loop_noerr true n t bl
    ⟨downstream s.graph n, s.graph, none, 0, false⟩ rfl
  constructor
  · rw [process_completion]
    simp only [black_stage]
    rw [hov]
    by_cases hb : (black_list_loop true n (some t) bl
        ⟨downstream s.graph n, s.graph, none, 0, false⟩).err
    · rw [if_pos hb]
      simp [alookup]
    · rw [if_neg hb]
      simp [alookup]
  · rfl

/-- Witness for C7 (amended): for `G → X` with the black list pruning `X`,
the result stored for `G` is the synthesized two-event stream. -/
theorem stream_fallback_amended_witness :
    alookup (process_completion true (sched_start [("G", ["X"]), ("X", [])]) "G"
        (.structured (some [patX]) (some "ok".toList))).resultDict "G"
      = some (fake_stream "ok".toList) ∧
    fake_stream "ok".toList = Resp.streaming
      ["data: b".toList ++ [squote] ++ "ok".toList ++ [squote] ++ "\n\n".toList,
       "data: [DONE]\n\n".toList] 0 :=
  stream_fallback_amended (sched_start [("G", ["X"]), ("X", [])]) "G" [patX] "ok".toList
    (List.cons_ne_nil _ _) (by decide)

/-! ### C1–C3: graph lemmas for the scheduler invariants -/

theorem alookup_mem {κ α : Type} [DecidableEq κ] :
    ∀ (l : List (κ × α)) (k : κ) (v : α), alookup l k = some v → (k, v) ∈ l
  | [], _, _, h => by simp [alookup] at h
  | (k0, w) :: rest, k, v, h => by
    rw [alookup] at h
    by_cases hk : k0 = k
    · rw [if_pos hk] at h
      injection h with h
      subst hk
      subst h
      exact List.mem_cons_self _ _
    · rw [if_neg hk] at h
      exact List.mem_cons_of_mem _ (alookup_mem rest k v h)

theorem downstream_nodup (g : Graph) (n : Node) (h : ∀ p ∈ g, p.2.Nodup) :
    (downstream g n).Nodup := by
  rw [downstream]
  cases hl : alookup g n with
  | none => simp
  | some l =>
    have hm := alookup_mem g n l hl
    simpa using h _ hm

theorem downstream_cons_self (k : Node) (l : List Node) (rest : Graph) :
    downstream ((k, l) :: rest) k = l := by
  simp [downstream, alookup]

theorem downstream_cons_ne (k : Node) (l : List Node) (rest : Graph) {u : Node}
    (h : ¬ k = u) : downstream ((k, l) :: rest) u = downstream rest u := by
  simp [downstream, alookup, h]

theorem downstream_delete_edge (g : Graph) (a b u : Node) :
    downstream (delete_edge g a b) u
      = if u = a then (downstream g u).erase b else downstream g u := by
  induction g with
  | nil => by_cases h : u = a <;> simp [downstream, delete_edge, alookup, h]
  | cons p rest ih =>
    obtain ⟨k, l⟩ := p
    have hcons : delete_edge ((k, l) :: rest) a b
        = (if k = a then (k, l.erase b) else (k, l)) :: delete_edge rest a b := by
      simp [delete_edge]
    rw [hcons]
    by_cases hku : k = u
    · subst hku
      by_cases hka : k = a
      · rw [if_pos hka, downstream_cons_self, if_pos hka, downstream_cons_self]
      · rw [if_neg hka, downstream_cons_self, if_neg hka, downstream_cons_self]
    · by_cases hka : k = a
      · rw [if_pos hka, downstream_cons_ne _ _ _ hku, downstream_cons_ne _ _ _ hku, ih]
      · rw [if_neg hka, downstream_cons_ne _ _ _ hku, downstream_cons_ne _ _ _ hku, ih]

theorem edgeIn_delete_edge {g : Graph} {a b u v : Node}
    (h : edgeIn (delete_edge g a b) u v) : edgeIn g u v := by
  rw [edgeIn, downstream_delete_edge] at h
  rw [edgeIn]
  by_cases hu : u = a
  · rw [if_pos hu] at h
    exact List.mem_of_mem_erase h
  · rw [if_neg hu] at h
    exact h

theorem snodup_delete_edge (g : Graph) (a b : Node) (h : ∀ p ∈ g, p.2.Nodup) :
    ∀ p ∈ delete_edge g a b, p.2.Nodup := by
  intro p hp
  rcases List.mem_map.mp hp with ⟨q, hq, hqp⟩
  by_cases hqa : q.1 = a
  · rw [← hqp, if_pos hqa]
    exact (h q hq).erase b
  · rw [← hqp, if_neg hqa]
    exact h q hq

theorem delete_edge_self (g : Graph) (n d : Node) (hnodup : ∀ p ∈ g, p.2.Nodup) :
    ¬ edgeIn (delete_edge g n d) n d := by
  rw [edgeIn, downstream_delete_edge, if_pos rfl]
  intro hm
  exact ((List.Nodup.mem_erase_iff (downstream_nodup g n hnodup)).mp hm).1 rfl

theorem edgeIn_prune_fold {n : Node} {P : Node → Bool} :
    ∀ (ds : List Node) (g : Graph) {u v : Node},
      edgeIn (ds.foldl (fun h d => if P d then delete_edge h n d else h) g) u v →
      edgeIn g u v
  | [], _, _, _, h => h
  | d :: rest, g, u, v, h => by
    rw [List.foldl_cons] at h
    have hrec := edgeIn_prune_fold rest (if P d then delete_edge g n d else g) h
    by_cases hP : P d
    · rw [if_pos hP] at hrec
      exact edgeIn_delete_edge hrec
    · rw [if_neg hP] at hrec
      exact hrec

theorem not_edgeIn_prune_fold {n : Node} {P : Node → Bool} (ds : List Node) (g : Graph)
    {u v : Node} (h : ¬ edgeIn g u v) :
    ¬ edgeIn (ds.foldl (fun h d => if P d then delete_edge h n d else h) g) u v :=
  fun hm => h (edgeIn_prune_fold ds g hm)

theorem snodup_prune_fold {n : Node} {P : Node → Bool} :
    ∀ (ds : List Node) (g : Graph), (∀ p ∈ g, p.2.Nodup) →
      ∀ p ∈ ds.foldl (fun h d => if P d then delete_edge h n d else h) g, p.2.Nodup
  | [], _, h => h
  | d :: rest, g, h => by
    rw [List.foldl_cons]
    apply snodup_prune_fold rest
    by_cases hP : P d
    · rw [if_pos hP]
      exact snodup_delete_edge g n d h
    · rw [if_neg hP]
      exact h

theorem prune_fold_deletes {n : Node} {P : Node → Bool} :
    ∀ (ds : List Node) (g : Graph) {d : Node}, (∀ p ∈ g, p.2.Nodup) →
      d ∈ ds → P d = true →
      ¬ edgeIn (ds.foldl (fun h x => if P x then delete_edge h n x else h) g) n d
  | [], _, _, _, hd, _ => absurd hd (List.not_mem_nil _)
  | x :: rest, g, d, hnd, hd, hP => by
    rw [List.foldl_cons]
    rcases List.mem_cons.mp hd with heq | htail
    · subst heq
      rw [if_pos hP]
      exact not_edgeIn_prune_fold rest _ (delete_edge_self g n d hnd)
    · by_cases hPx : P x
      · rw [if_pos hPx]
        by_cases hxd : x = d
        · subst hxd
          exact not_edgeIn_prune_fold rest _ (delete_edge_self g n x hnd)
        · exact prune_fold_deletes rest _ (snodup_delete_edge g n x hnd) htail hP
      · rw [if_neg hPx]
        exact prune_fold_deletes rest g hnd htail hP

theorem edgeIn_mem_predecessors {g : Graph} {u v : Node} (h : edgeIn g u v) :
    u ∈ predecessors g v := by
  rw [edgeIn, downstream] at h
  cases hl : alookup g u with
  | none => rw [hl] at h; simp at h
  | some l =>
    rw [hl] at h
    simp at h
    have hm := alookup_mem g u l hl
    rw [predecessors]
    exact List.mem_map.mpr ⟨(u, l), List.mem_filter.mpr ⟨hm, by simpa using h⟩, rfl⟩

theorem ind_nodes_no_incoming (g : Graph) {u v : Node} (hv : v ∈ ind_nodes g) :
    ¬ edgeIn g u v := by
  intro he
  rw [edgeIn, downstream] at he
  cases hl : alookup g u with
  | none => rw [hl] at he; simp at he
  | some l =>
    rw [hl] at he
    simp at he
    have hm := alookup_mem g u l hl
    have hin : hasIncoming g v = true := by
      rw [hasIncoming]
      exact List.any_eq_true.mpr ⟨(u, l), hm, by simpa using he⟩
    rw [ind_nodes] at hv
    have := (List.mem_filter.mp hv).2
    rw [hin] at this
    simp at this

theorem downstream_dnie (g : Graph) (x u : Node) :
    downstream (delete_node_if_exists g x) u
      = if u = x then [] else (downstream g u).erase x := by
  induction g with
  | nil => by_cases h : u = x <;> simp [downstream, delete_node_if_exists, alookup, h]
  | cons p rest ih =>
    obtain ⟨k, l⟩ := p
    by_cases hk : k = x
    · subst hk
      have hcons : delete_node_if_exists ((k, l) :: rest) k
          = delete_node_if_exists rest k := by
        simp [delete_node_if_exists]
      rw [hcons, ih]
      by_cases hku : k = u
      · subst hku
        rw [if_pos rfl, if_pos rfl]
      · rw [downstream_cons_ne _ _ _ hku]
    · have hcons : delete_node_if_exists ((k, l) :: rest) x
          = (k, l.erase x) :: delete_node_if_exists rest x := by
        simp [delete_node_if_exists, hk]
      rw [hcons]
      by_cases hku : k = u
      · subst hku
        rw [downstream_cons_self, if_neg hk, downstream_cons_self]
      · rw [downstream_cons_ne _ _ _ hku, downstream_cons_ne _ _ _ hku, ih]

theorem edgeIn_dnie {g : Graph} {x u v : Node}
    (h : edgeIn (delete_node_if_exists g x) u v) : edgeIn g u v := by
  rw [edgeIn, downstream_dnie] at h
  rw [edgeIn]
  by_cases hu : u = x
  · rw [if_pos hu] at h
    simp at h
  · rw [if_neg hu] at h
    exact List.mem_of_mem_erase h

theorem edgeIn_prune_nodes_fold {keep : List Node} :
    ∀ (nodes : List Node) (g : Graph) {u v : Node},
      edgeIn (nodes.foldl
        (fun h node => if node ∈ keep then h else delete_node_if_exists h node) g) u v →
      edgeIn g u v
  | [], _, _, _, h => h
  | x :: rest, g, u, v, h => by
    rw [List.foldl_cons] at h
    have hrec := edgeIn_prune_nodes_fold rest _ h
    by_cases hx : x ∈ keep
    · rw [if_pos hx] at hrec
      exact hrec
    · rw [if_neg hx] at hrec
      exact edgeIn_dnie hrec

/-- One unfolding of `black_list_loop` for a `cons` pattern list, valid for
an arbitrary `text?`. -/
theorem black_list_loop_cons (stream : Bool) (n : Node) (txt : Option (List Char))
    (p : BlackPattern) (ps : List BlackPattern) (st : BlackSt) :
    black_list_loop stream n txt (p :: ps) st
      = (if (prune_black_node n p st.ds st.graph).1.isEmpty && stream then
           match txt with
           | some t => black_list_loop stream n txt ps
               ⟨(prune_black_node n p st.ds st.graph).1,
                (prune_black_node n p st.ds st.graph).2.1, some (fake_stream t),
                st.logs + (prune_black_node n p st.ds st.graph).2.2, false⟩
           | none => ⟨(prune_black_node n p st.ds st.graph).1,
                (prune_black_node n p st.ds st.graph).2.1, st.override,
                st.logs + (prune_black_node n p st.ds st.graph).2.2, true⟩
         else black_list_loop stream n txt ps
               ⟨(prune_black_node n p st.ds st.graph).1,
                (prune_black_node n p st.ds st.graph).2.1, st.override,
                st.logs + (prune_black_node n p st.ds st.graph).2.2, false⟩) := by
  cases txt <;> rfl

theorem prune_black_node_edge (n : Node) (p : BlackPattern) (ds : List Node) (g : Graph)
    {u v : Node} (h : edgeIn (prune_black_node n p ds g).2.1 u v) : edgeIn g u v := by
  rw [prune_black_node] at h
  by_cases hp : p.valid
  · rw [if_pos hp] at h
    exact edgeIn_prune_fold ds g h
  · rw [if_neg hp] at h
    exact h

theorem prune_black_node_snodup (n : Node) (p : BlackPattern) (ds : List Node) (g : Graph)
    (h : ∀ q ∈ g, q.2.Nodup) : ∀ q ∈ (prune_black_node n p ds g).2.1, q.2.Nodup := by
  rw [prune_black_node]
  by_cases hp : p.valid
  · rw [if_pos hp]
    exact snodup_prune_fold ds g h
  · rw [if_neg hp]
    exact h

theorem prune_black_node_ds (n : Node) (p : BlackPattern) (ds : List Node) (g : Graph)
    {d : Node} (h : d ∈ (prune_black_node n p ds g).1) : d ∈ ds := by
  rw [prune_black_node] at h
  by_cases hp : p.valid
  · rw [if_pos hp] at h
    exact List.mem_of_mem_filter h
  · rw [if_neg hp] at h
    exact h

theorem prune_black_node_ds_nodup (n : Node) (p : BlackPattern) (ds : List Node) (g : Graph)
    (h : ds.Nodup) : (prune_black_node n p ds g).1.Nodup := by
  rw [prune_black_node]
  by_cases hp : p.valid
  · rw [if_pos hp]
    exact h.filter _
  · rw [if_neg hp]
    exact h

theorem black_list_loop_edge (stream : Bool) (n : Node) :
    ∀ (bl : List BlackPattern) (txt : Option (List Char)) (st : BlackSt) {u v : Node},
      edgeIn (black_list_loop stream n txt bl st).graph u v → edgeIn st.graph u v
  | [], _, _, _, _, h => h
  | p :: ps, txt, st, u, v, h => by
    rw [black_list_loop_cons] at h
    by_cases hfire : (prune_black_node n p st.ds st.graph).1.isEmpty && stream
    · rw [if_pos hfire] at h
      cases txt with
      | none =>
        exact prune_black_node_edge n p st.ds st.graph h
      | some t =>
        exact prune_black_node_edge n p st.ds st.graph
          (black_list_loop_edge stream n ps (some t) _ h)
    · rw [if_neg hfire] at h
      exact prune_black_node_edge n p st.ds st.graph
        (black_list_loop_edge stream n ps txt _ h)

theorem black_list_loop_snodup (stream : Bool) (n : Node) :
    ∀ (bl : List BlackPattern) (txt : Option (List Char)) (st : BlackSt),
      (∀ q ∈ st.graph, q.2.Nodup) →
      ∀ q ∈ (black_list_loop stream n txt bl st).graph, q.2.Nodup
  | [], _, _, h => h
  | p :: ps, txt, st, h => by
    rw [black_list_loop_cons]
    by_cases hfire : (prune_black_node n p st.ds st.graph).1.isEmpty && stream
    · rw [if_pos hfire]
      cases txt with
      | none =>
        exact prune_black_node_snodup n p st.ds st.graph h
      | some t =>
        exact black_list_loop_snodup stream n ps (some t) _
          (prune_black_node_snodup n p st.ds st.graph h)
    · rw [if_neg hfire]
      exact black_list_loop_snodup stream n ps txt _
        (prune_black_node_snodup n p st.ds st.graph h)

theorem black_list_loop_ds (stream : Bool) (n : Node) :
    ∀ (bl : List BlackPattern) (txt : Option (List Char)) (st : BlackSt) {d : Node},
      d ∈ (black_list_loop stream n txt bl st).ds → d ∈ st.ds
  | [], _, _, _, h => h
  | p :: ps, txt, st, d, h => by
    rw [black_list_loop_cons] at h
    by_cases hfire : (prune_black_node n p st.ds st.graph).1.isEmpty && stream
    · rw [if_pos hfire] at h
      cases txt with
      | none =>
        exact prune_black_node_ds n p st.ds st.graph h
      | some t =>
        exact prune_black_node_ds n p st.ds st.graph
          (black_list_loop_ds stream n ps (some t) _ h)
    · rw [if_neg hfire] at h
      exact prune_black_node_ds n p st.ds st.graph
        (black_list_loop_ds stream n ps txt _ h)

theorem black_list_loop_ds_nodup (stream : Bool) (n : Node) :
    ∀ (bl : List BlackPattern) (txt : Option (List Char)) (st : BlackSt),
      st.ds.Nodup → (black_list_loop stream n txt bl st).ds.Nodup
  | [], _, _, h => h
  | p :: ps, txt, st, h => by
    rw [black_list_loop_cons]
    by_cases hfire : (prune_black_node n p st.ds st.graph).1.isEmpty && stream
    · rw [if_pos hfire]
      cases txt with
      | none =>
        exact prune_black_node_ds_nodup n p st.ds st.graph h
      | some t =>
        exact black_list_loop_ds_nodup stream n ps (some t) _
          (prune_black_node_ds_nodup n p st.ds st.graph h)
    · rw [if_neg hfire]
      exact black_list_loop_ds_nodup stream n ps txt _
        (prune_black_node_ds_nodup n p st.ds st.graph h)

/-- The prune step for a matching valid pattern: the matched downstream is
filtered out and its edge is deleted; an already-absent downstream with an
already-deleted edge stays absent and deleted. -/
theorem prune_black_node_matched (n : Node) (p : BlackPattern) (ds : List Node) (g : Graph)
    {d : Node} (hsn : ∀ q ∈ g, q.2.Nodup)
    (hK : d ∉ ds → ¬ edgeIn g n d) :
    (d ∉ (prune_black_node n p ds g).1 → ¬ edgeIn (prune_black_node n p ds g).2.1 n d) ∧
    (p.valid = true → p.hits d = true → d ∉ (prune_black_node n p ds g).1) := by
  constructor
  · intro hout
    rw [prune_black_node] at hout ⊢
    by_cases hp : p.valid
    · rw [if_pos hp] at hout ⊢
      by_cases hdm : d ∈ ds
      · by_cases hhit : p.hits d
        · exact prune_fold_deletes ds g hsn hdm hhit
        · exact absurd (List.mem_filter.mpr ⟨hdm, by simp [hhit]⟩) hout
      · exact not_edgeIn_prune_fold ds g (hK hdm)
    · rw [if_neg hp] at hout ⊢
      exact hK hout
  · intro hv hh
    rw [prune_black_node, if_pos hv]
    intro hmem
    have := (List.mem_filter.mp hmem).2
    rw [hh] at this
    simp at this

/-- Through the whole black-list loop: if some pattern of the list is valid
and matches `d`, then `d` is not in the final downstream view and the edge
`(n, d)` is deleted from the final graph. -/
theorem black_list_loop_matched (stream : Bool) (n : Node) (d : Node) :
    ∀ (bl : List BlackPattern) (txt : Option (List Char)) (st : BlackSt),
      (∀ q ∈ st.graph, q.2.Nodup) →
      (d ∉ st.ds → ¬ edgeIn st.graph n d) →
      (∃ p ∈ bl, p.valid = true ∧ p.hits d = true) →
      d ∉ (black_list_loop stream n txt bl st).ds ∧
      ¬ edgeIn (black_list_loop stream n txt bl st).graph n d
  | [], _, _, _, _, hex => absurd hex (by simp)
  | p :: ps, txt, st, hsn, hK, hex => by
    have hmat := prune_black_node_matched n p st.ds st.graph hsn hK
    have hsn' := prune_black_node_snodup n p st.ds st.graph hsn
    rw [black_list_loop_cons]
    rcases hex with ⟨q, hq, hqv, hqh⟩
    rcases List.mem_cons.mp hq with hqp | hqtail
    · -- the head pattern is the witness: d is gone after this very step
      subst hqp
      have hout : d ∉ (prune_black_node n q st.ds st.graph).1 := hmat.2 hqv hqh
      have hedge : ¬ edgeIn (prune_black_node n q st.ds st.graph).2.1 n d := hmat.1 hout
      by_cases hfire : (prune_black_node n q st.ds st.graph).1.isEmpty && stream
      · rw [if_pos hfire]
        cases txt with
        | none =>
          exact ⟨hout, hedge⟩
        | some t =>
          constructor
          · intro hm
            exact hout (black_list_loop_ds stream n ps (some t) _ hm)
          · intro hm
            exact hedge (black_list_loop_edge stream n ps (some t) _ hm)
      · rw [if_neg hfire]
        constructor
        · intro hm
          exact hout (black_list_loop_ds stream n ps txt _ hm)
        · intro hm
          exact hedge (black_list_loop_edge stream n ps txt _ hm)
    · -- the witness is further down the list
      by_cases hfire : (prune_black_node n p st.ds st.graph).1.isEmpty && stream
      · rw [if_pos hfire]
        cases txt with
        | none =>
          -- the loop stops here with an empty view: `d` is out, and `hmat.1` deletes
          have hempty : (prune_black_node n p st.ds st.graph).1 = [] := by
            rcases Bool.and_eq_true _ _ ▸ hfire with ⟨h1, _⟩
            exact List.isEmpty_iff.mp h1
          have hout : d ∉ (prune_black_node n p st.ds st.graph).1 := by
            rw [hempty]; exact List.not_mem_nil d
          exact ⟨hout, hmat.1 hout⟩
        | some t =>
          exact black_list_loop_matched stream n d ps (some t) _ hsn' hmat.1
            ⟨q, hqtail, hqv, hqh⟩
      · rw [if_neg hfire]
        exact black_list_loop_matched stream n d ps txt _ hsn' hmat.1
          ⟨q, hqtail, hqv, hqh⟩

theorem black_stage_edge (stream : Bool) (g : Graph) (n : Node) (r : Resp) {u v : Node}
    (h : edgeIn (black_stage stream g n r).graph u v) : edgeIn g u v := by
  match r with
  | .structured none _ => exact h
  | .structured (some bl) txt => exact black_list_loop_edge stream n bl txt _ h
  | .streaming _ _ => exact h

theorem black_stage_snodup (stream : Bool) (g : Graph) (n : Node) (r : Resp)
    (hsn : ∀ q ∈ g, q.2.Nodup) : ∀ q ∈ (black_stage stream g n r).graph, q.2.Nodup := by
  match r with
  | .structured none _ => exact hsn
  | .structured (some bl) txt => exact black_list_loop_snodup stream n bl txt _ hsn
  | .streaming _ _ => exact hsn

theorem black_stage_ds (stream : Bool) (g : Graph) (n : Node) (r : Resp) {d : Node}
    (h : d ∈ (black_stage stream g n r).ds) : d ∈ downstream g n := by
  match r with
  | .structured none _ => exact h
  | .structured (some bl) txt => exact black_list_loop_ds stream n bl txt _ h
  | .streaming _ _ => exact h

theorem black_stage_ds_nodup (stream : Bool) (g : Graph) (n : Node) (r : Resp)
    (hsn : ∀ q ∈ g, q.2.Nodup) : (black_stage stream g n r).ds.Nodup := by
  match r with
  | .structured none _ => exact downstream_nodup g n hsn
  | .structured (some bl) txt =>
    exact black_list_loop_ds_nodup stream n bl txt _ (downstream_nodup g n hsn)
  | .streaming _ _ => exact downstream_nodup g n hsn

theorem black_stage_matched (stream : Bool) (g : Graph) (n d : Node)
    (bl : List BlackPattern) (txt : Option (List Char)) (hsn : ∀ q ∈ g, q.2.Nodup)
    (hex : ∃ p ∈ bl, p.valid = true ∧ p.hits d = true) :
    d ∉ (black_stage stream g n (.structured (some bl) txt)).ds ∧
    ¬ edgeIn (black_stage stream g n (.structured (some bl) txt)).graph n d :=
  black_list_loop_matched stream n d bl txt
    ⟨downstream g n, g, none, 0, false⟩ hsn (fun h => h) hex

/-! ### Counting lemmas on trace events -/

theorem ev_dispatched_inj : Function.Injective Ev.dispatched := by
  intro a b h
  injection h

theorem count_dispatched_map (l : List Node) (m : Node) :
    (l.map Ev.dispatched).count (Ev.dispatched m) = l.count m :=
  List.count_map_of_injective l Ev.dispatched ev_dispatched_inj m

theorem count_completed_in_dispatched_map (l : List Node) (m : Node) :
    (l.map Ev.dispatched).count (Ev.completed m) = 0 :=
  List.count_eq_zero.mpr (fun hm => by
    rcases List.mem_map.mp hm with ⟨a, _, ha⟩
    exact Ev.noConfusion ha)

theorem count_completed_single (c m : Node) :
    ([Ev.completed c] : List Ev).count (Ev.completed m) = if c = m then 1 else 0 := by
  by_cases h : c = m <;> simp [List.count_cons, h]

theorem count_dispatched_single (c m : Node) :
    ([Ev.completed c] : List Ev).count (Ev.dispatched m) = 0 := by
  simp [List.count_cons]

/-! ### The scheduler invariant -/

/-- The loop invariant of `schedule`'s event loop, relative to the template
graph `g0`:
* `shrink`: runtime edges only ever disappear;
* `snodup`: successor lists stay duplicate-free;
* `balance`: every `execute` dispatch is either still pending or has been
  recorded in `result_dict` (trace bookkeeping);
* `dispOnce`: every node is dispatched at most once (single-dispatch);
* `resKeys`: `result_dict` holds a key exactly for the completed nodes;
* `topo`: every dispatch of a node is preceded by the completion of each of
  its predecessors in the current runtime graph (topological execution). -/
structure SchedInv (g0 : Graph) (s : Sched) : Prop where
  shrink : ∀ u v, edgeIn s.graph u v → edgeIn g0 u v
  snodup : ∀ p ∈ s.graph, p.2.Nodup
  balance : ∀ m, s.pending.count m + s.trace.count (Ev.completed m)
      = s.trace.count (Ev.dispatched m)
  dispOnce : ∀ m, s.trace.count (Ev.dispatched m) ≤ 1
  resKeys : ∀ m, (alookup s.resultDict m).isSome ↔ Ev.completed m ∈ s.trace
  topo : ∀ v j u, s.trace.get? j = some (Ev.dispatched v) → edgeIn s.graph u v →
      ∃ i, i < j ∧ s.trace.get? i = some (Ev.completed u)

theorem sched_inv_start (g : Graph) (hk : (g.map Prod.fst).Nodup)
    (hs : ∀ p ∈ g, p.2.Nodup) : SchedInv g (sched_start g) where
  shrink := fun _ _ h => h
  snodup := hs
  balance := by
    intro m
    show (ind_nodes g).count m + ((ind_nodes g).map Ev.dispatched).count (Ev.completed m)
        = ((ind_nodes g).map Ev.dispatched).count (Ev.dispatched m)
    rw [count_completed_in_dispatched_map, count_dispatched_map]
    omega
  dispOnce := by
    intro m
    show ((ind_nodes g).map Ev.dispatched).count (Ev.dispatched m) ≤ 1
    rw [count_dispatched_map]
    exact List.nodup_iff_count_le_one.mp (hk.filter _) m
  resKeys := by
    intro m
    show (alookup [] m).isSome ↔ Ev.completed m ∈ (ind_nodes g).map Ev.dispatched
    constructor
    · intro h
      simp [alookup] at h
    · intro h
      rcases List.mem_map.mp h with ⟨a, _, ha⟩
      exact Ev.noConfusion ha
  topo := by
    intro v j u hj he
    exfalso
    have hmem : Ev.dispatched v ∈ (ind_nodes g).map Ev.dispatched := List.get?_mem hj
    rcases List.mem_map.mp hmem with ⟨a, ha, hav⟩
    have : a = v := ev_dispatched_inj hav
    subst this
    exact ind_nodes_no_incoming g ha he

/-- Core preservation argument: processing one completed pending task `c` —
whose black-list stage turned the runtime graph into `G`, with `ready` the
nodes dispatched by the readiness scan and `rdN` the updated result table —
preserves the scheduler invariant, regardless of the metric fields. -/
theorem sched_inv_append (g0 : Graph) (s : Sched) (c : Node) (G : Graph)
    (ready : List Node) (rdN : List (Node × Resp))
    (i1 d1 l1 : Nat) (e1 : Bool)
    (inv : SchedInv g0 s) (hc : c ∈ s.pending)
    (hGe : ∀ u v, edgeIn G u v → edgeIn s.graph u v)
    (hGs : ∀ p ∈ G, p.2.Nodup)
    (hready_sub : ∀ d ∈ ready, d ∈ downstream s.graph c)
    (hready_nodup : ready.Nodup)
    (hready_cond : ∀ d ∈ ready, ∀ u, edgeIn G u d →
        u = c ∨ (alookup s.resultDict u).isSome)
    (hrdN : ∀ m, (alookup rdN m).isSome ↔ (m = c ∨ (alookup s.resultDict m).isSome)) :
    SchedInv g0 { graph := G, resultDict := rdN,
                  pending := s.pending.erase c ++ ready,
                  trace := s.trace ++ [Ev.completed c] ++ ready.map Ev.dispatched,
                  incs := i1, schedDecs := d1, logs := l1, errored := e1 } := by
  have hcnot : Ev.completed c ∉ s.trace := by
    intro hm
    have h1 : 0 < s.trace.count (Ev.completed c) := List.count_pos_iff.mpr hm
    have h2 : 0 < s.pending.count c := List.count_pos_iff.mpr hc
    have hb := inv.balance c
    have hd := inv.dispOnce c
    omega
  refine ⟨?_, ?_, ?_, ?_, ?_, ?_⟩
  · exact fun u v h => inv.shrink u v (hGe u v h)
  · exact hGs
  · -- balance
    intro m
    show (s.pending.erase c ++ ready).count m
        + (s.trace ++ [Ev.completed c] ++ ready.map Ev.dispatched).count (Ev.completed m)
        = (s.trace ++ [Ev.completed c] ++ ready.map Ev.dispatched).count (Ev.dispatched m)
    rw [List.count_append, List.count_append, List.count_append,
        List.count_append, List.count_append]
    rw [count_completed_in_dispatched_map, count_completed_single,
        count_dispatched_single, count_dispatched_map]
    have hb := inv.balance m
    by_cases hm : m = c
    · subst hm
      rw [List.count_erase_self]
      rw [if_pos rfl]
      have h2 : 0 < s.pending.count m := List.count_pos_iff.mpr hc
      omega
    · rw [List.count_erase_of_ne hm]
      rw [if_neg (fun hh => hm hh.symm)]
      omega
  · -- dispOnce
    intro m
    show (s.trace ++ [Ev.completed c] ++ ready.map Ev.dispatched).count (Ev.dispatched m) ≤ 1
    rw [List.count_append, List.count_append, count_dispatched_single, count_dispatched_map]
    by_cases hm : m ∈ ready
    · have hone : ready.count m = 1 := List.count_eq_one_of_mem hready_nodup hm
      have hzero : s.trace.count (Ev.dispatched m) = 0 := by
        rw [List.count_eq_zero]
        intro hdm
        rcases List.mem_iff_get?.mp hdm with ⟨j, hj⟩
        have he : edgeIn s.graph c m := hready_sub m hm
        rcases inv.topo m j c hj he with ⟨i, _, hi⟩
        exact hcnot (List.get?_mem hi)
      omega
    · have h0 : ready.count m = 0 := List.count_eq_zero.mpr hm
      have h1 := inv.dispOnce m
      omega
  · -- resKeys
    intro m
    show (alookup rdN m).isSome
        ↔ Ev.completed m ∈ s.trace ++ [Ev.completed c] ++ ready.map Ev.dispatched
    rw [hrdN m]
    constructor
    · rintro (hmc | hold)
      · subst hmc
        exact List.mem_append.mpr (Or.inl (List.mem_append.mpr
          (Or.inr (List.mem_singleton.mpr rfl))))
      · exact List.mem_append.mpr (Or.inl (List.mem_append.mpr
          (Or.inl ((inv.resKeys m).mp hold))))
    · intro hmem
      rcases List.mem_append.mp hmem with hmem1 | hmem2
      · rcases List.mem_append.mp hmem1 with hT | hc1
        · exact Or.inr ((inv.resKeys m).mpr hT)
        · left
          have := List.mem_singleton.mp hc1
          injection this with h
      · exfalso
        rcases List.mem_map.mp hmem2 with ⟨a, _, ha⟩
        exact Ev.noConfusion ha
  · -- topo
    intro v j u hj he
    have he' : edgeIn s.graph u v := hGe u v he
    show ∃ i, i < j ∧
      (s.trace ++ [Ev.completed c] ++ ready.map Ev.dispatched).get? i
        = some (Ev.completed u)
    by_cases hjL : j < s.trace.length
    · have hj' : s.trace.get? j = some (Ev.dispatched v) := by
        have e1 : (s.trace ++ [Ev.completed c] ++ ready.map Ev.dispatched).get? j
            = (s.trace ++ [Ev.completed c]).get? j :=
          List.get?_append (by rw [List.length_append]; omega)
        have e2 : (s.trace ++ [Ev.completed c]).get? j = s.trace.get? j :=
          List.get?_append hjL
        rw [e1, e2] at hj
        exact hj
      rcases inv.topo v j u hj' he' with ⟨i, hij, hi⟩
      have hiL : i < s.trace.length := by
        rcases List.get?_eq_some.mp hi with ⟨hlt, _⟩
        exact hlt
      refine ⟨i, hij, ?_⟩
      rw [List.get?_append (by rw [List.length_append]; omega), List.get?_append hiL]
      exact hi
    · by_cases hjL2 : j = s.trace.length
      · exfalso
        subst hjL2
        have e1 : (s.trace ++ [Ev.completed c] ++ ready.map Ev.dispatched).get? s.trace.length
            = (s.trace ++ [Ev.completed c]).get? s.trace.length :=
          List.get?_append (by rw [List.length_append]; simp)
        have e2 : (s.trace ++ [Ev.completed c]).get? s.trace.length
            = some (Ev.completed c) := by
          rw [List.get?_append_right (le_refl _)]
          simp
        rw [e1, e2] at hj
        injection hj with hj
        exact Ev.noConfusion hj
      · have hjgt : s.trace.length < j := by omega
        have e1 : (s.trace ++ [Ev.completed c] ++ ready.map Ev.dispatched).get? j
            = (ready.map Ev.dispatched).get? (j - (s.trace.length + 1)) := by
          rw [List.get?_append_right (by rw [List.length_append]; simp; omega)]
          congr 1
          rw [List.length_append]
          simp
        rw [e1] at hj
        have hvready : v ∈ ready := by
          have hmem := List.get?_mem hj
          rcases List.mem_map.mp hmem with ⟨a, ha, hav⟩
          have hav' : a = v := ev_dispatched_inj hav
          subst hav'
          exact ha
        rcases hready_cond v hvready u he with hu | hold
        · subst hu
          refine ⟨s.trace.length, hjgt, ?_⟩
          rw [List.get?_append (by rw [List.length_append]; simp),
              List.get?_append_right (le_refl _)]
          simp
        · have hmem := (inv.resKeys u).mp hold
          rcases List.mem_iff_get?.mp hmem with ⟨i, hi⟩
          have hiL : i < s.trace.length := by
            rcases List.get?_eq_some.mp hi with ⟨hlt, _⟩
            exact hlt
          refine ⟨i, by omega, ?_⟩
          rw [List.get?_append (by rw [List.length_append]; omega), List.get?_append hiL]
          exact hi

/-- The result-table update of `process_completion` (lines 152 and 176). -/
def pc_rd (rd : List (Node × Resp)) (n : Node) (r : Resp) (ov : Option Resp) :
    List (Node × Resp) :=
  match ov with
  | some fake => (n, fake) :: (n, r) :: rd
  | none => (n, r) :: rd

/-- The readiness scan of `process_completion` (lines 180–189). -/
def pc_ready (B : BlackSt) (rd' : List (Node × Resp)) : List Node :=
  B.ds.filter fun d => (predecessors B.graph d).all fun i => (alookup rd' i).isSome

theorem process_completion_eq (stream : Bool) (s : Sched) (n : Node) (r : Resp) :
    process_completion stream s n r =
      (if (black_stage stream s.graph n r).err then
        { graph := (black_stage stream s.graph n r).graph,
          resultDict := pc_rd s.resultDict n r (black_stage stream s.graph n r).override,
          pending := s.pending, trace := s.trace ++ [Ev.completed n],
          incs := s.incs, schedDecs := s.schedDecs,
          logs := s.logs + (black_stage stream s.graph n r).logs, errored := true }
      else
        { graph := (black_stage stream s.graph n r).graph,
          resultDict := pc_rd s.resultDict n r (black_stage stream s.graph n r).override,
          pending := s.pending ++ pc_ready (black_stage stream s.graph n r)
              (pc_rd s.resultDict n r (black_stage stream s.graph n r).override),
          trace := s.trace ++ [Ev.completed n]
              ++ (pc_ready (black_stage stream s.graph n r)
                  (pc_rd s.resultDict n r
                    (black_stage stream s.graph n r).override)).map Ev.dispatched,
          incs := s.incs, schedDecs := s.schedDecs,
          logs := s.logs + (black_stage stream s.graph n r).logs, errored := false }) := by
  rfl

theorem alookup_cons_isSome {α : Type} (c m : Node) (x : α) (tail : List (Node × α)) :
    (alookup ((c, x) :: tail) m).isSome ↔ (m = c ∨ (alookup tail m).isSome) := by
  rw [alookup]
  by_cases h : c = m
  · simp [h]
  · simp [h, Ne.symm h]

theorem pc_rd_isSome (rd : List (Node × Resp)) (n : Node) (r : Resp) (ov : Option Resp)
    (m : Node) :
    (alookup (pc_rd rd n r ov) m).isSome ↔ (m = n ∨ (alookup rd m).isSome) := by
  match ov with
  | some f =>
    show (alookup ((n, f) :: (n, r) :: rd) m).isSome ↔ _
    rw [alookup_cons_isSome, alookup_cons_isSome]
    tauto
  | none =>
    show (alookup ((n, r) :: rd) m).isSome ↔ _
    rw [alookup_cons_isSome]

theorem pc_ready_sub {B : BlackSt} {rd' : List (Node × Resp)} {d : Node}
    (h : d ∈ pc_ready B rd') : d ∈ B.ds :=
  List.mem_of_mem_filter h

theorem pc_ready_nodup {B : BlackSt} {rd' : List (Node × Resp)} (h : B.ds.Nodup) :
    (pc_ready B rd').Nodup :=
  h.filter _

theorem pc_ready_cond {B : BlackSt} {rd' : List (Node × Resp)} {d : Node}
    (h : d ∈ pc_ready B rd') {u : Node} (he : edgeIn B.graph u d) :
    (alookup rd' u).isSome := by
  have hall := (List.mem_filter.mp h).2
  have hmem := edgeIn_mem_predecessors he
  have := List.all_eq_true.mp hall u hmem
  simpa using this

theorem sched_inv_step (g0 : Graph) (stream : Bool) (resp : Node → Resp)
    (s : Sched) (c : Node) (inv : SchedInv g0 s) :
    SchedInv g0 (sched_step stream resp s c) := by
  rw [sched_step]
  by_cases herr : s.errored
  · rw [if_pos herr]
    exact inv
  · rw [if_neg herr]
    by_cases hc : c ∈ s.pending
    · rw [if_pos hc]
      rw [process_completion_eq]
      have hGe : ∀ u v, edgeIn (black_stage stream s.graph c (resp c)).graph u v →
          edgeIn s.graph u v :=
        fun u v h => black_stage_edge stream s.graph c (resp c) h
      have hGs : ∀ p ∈ (black_stage stream s.graph c (resp c)).graph, p.2.Nodup :=
        black_stage_snodup stream s.graph c (resp c) inv.snodup
      have hrd : ∀ m, (alookup (pc_rd s.resultDict c (resp c)
            (black_stage stream s.graph c (resp c)).override) m).isSome ↔
          (m = c ∨ (alookup s.resultDict m).isSome) :=
        pc_rd_isSome s.resultDict c (resp c) _
      by_cases hB : (black_stage stream s.graph c (resp c)).err
      · rw [if_pos hB]
        have key := sched_inv_append g0 s c (black_stage stream s.graph c (resp c)).graph
          [] (pc_rd s.resultDict c (resp c) (black_stage stream s.graph c (resp c)).override)
          s.incs s.schedDecs (s.logs + (black_stage stream s.graph c (resp c)).logs) true
          inv hc hGe hGs
          (by intro d hd; exact absurd hd (List.not_mem_nil d))
          List.nodup_nil
          (by intro d hd; exact absurd hd (List.not_mem_nil d))
          hrd
        have hstate :
            ({ graph := (black_stage stream s.graph c (resp c)).graph,
               resultDict := pc_rd s.resultDict c (resp c)
                 (black_stage stream s.graph c (resp c)).override,
               pending := s.pending.erase c ++ [],
               trace := s.trace ++ [Ev.completed c] ++ ([] : List Node).map Ev.dispatched,
               incs := s.incs, schedDecs := s.schedDecs,
               logs := s.logs + (black_stage stream s.graph c (resp c)).logs,
               errored := true } : Sched)
            = { graph := (black_stage stream s.graph c (resp c)).graph,
                resultDict := pc_rd s.resultDict c (resp c)
                  (black_stage stream s.graph c (resp c)).override,
                pending := s.pending.erase c,
                trace := s.trace ++ [Ev.completed c],
                incs := s.incs, schedDecs := s.schedDecs,
                logs := s.logs + (black_stage stream s.graph c (resp c)).logs,
                errored := true } := by
          simp
        exact hstate ▸ key
      · rw [if_neg hB]
        exact sched_inv_append g0 s c (black_stage stream s.graph c (resp c)).graph
          (pc_ready (black_stage stream s.graph c (resp c))
            (pc_rd s.resultDict c (resp c) (black_stage stream s.graph c (resp c)).override))
          (pc_rd s.resultDict c (resp c) (black_stage stream s.graph c (resp c)).override)
          s.incs s.schedDecs (s.logs + (black_stage stream s.graph c (resp c)).logs) false
          inv hc hGe hGs
          (fun d hd => black_stage_ds stream s.graph c (resp c) (pc_ready_sub hd))
          (pc_ready_nodup (black_stage_ds_nodup stream s.graph c (resp c) inv.snodup))
          (fun d hd u he => (hrd u).mp (pc_ready_cond hd he))
          hrd
    · rw [if_neg hc]
      exact inv

theorem sched_inv_loop (g0 : Graph) (stream : Bool) (resp : Node → Resp) :
    ∀ (cs : List Node) (s : Sched), SchedInv g0 s →
      SchedInv g0 (sched_loop stream resp cs s)
  | [], _, inv => inv
  | c :: cs, s, inv =>
    sched_inv_loop g0 stream resp cs _ (sched_inv_step g0 stream resp s c inv)

/-- The epilogue of `schedule` (reachability pruning, lines 190–199) leaves
the trace unchanged and only removes edges. -/
theorem schedule_trace_graph (g : Graph) (stream : Bool) (resp : Node → Resp)
    (choices : List Node) :
    (schedule g stream resp choices).trace
      = (sched_loop stream resp choices (sched_start g)).trace ∧
    (∀ u v, edgeIn (schedule g stream resp choices).graph u v →
      edgeIn (sched_loop stream resp choices (sched_start g)).graph u v) := by
  rw [schedule]
  simp only []
  by_cases herr : (sched_loop stream resp choices (sched_start g)).errored
  · rw [if_pos herr]
    exact ⟨rfl, fun _ _ h => h⟩
  · rw [if_neg herr]
    refine ⟨rfl, ?_⟩
    intro u v h
    exact edgeIn_prune_nodes_fold _ _ h

/-- C1 (topological execution): in the trace of a `schedule` run — for any
completion order and any responses — whenever `u` is a predecessor of `v` in
the (pruned) runtime graph returned by `schedule` and `v`'s execute task was
dispatched at trace position `j`, then `u`'s result was recorded at an
earlier position: a node is scheduled only after every one of its
predecessors in the runtime graph is present in `result_dict`.  The template
graph satisfies the DAG-model invariants (unique node names, duplicate-free
successor lists). -/
theorem schedule_topological (g : Graph) (stream : Bool) (resp : Node → Resp)
    (choices : List Node)
    (hk : (g.map Prod.fst).Nodup) (hs : ∀ p ∈ g, p.2.Nodup)
    (u v : Node) (j : Nat)
    (he : edgeIn (schedule g stream resp choices).graph u v)
    (hj : (schedule g stream resp choices).trace.get? j = some (Ev.dispatched v)) :
    ∃ i, i < j ∧
      (schedule g stream resp choices).trace.get? i = some (Ev.completed u) := by
  have inv := sched_inv_loop g stream resp choices (sched_start g)
    (sched_inv_start g hk hs)
  obtain ⟨htr, hgr⟩ := schedule_trace_graph g stream resp choices
  rw [htr] at hj ⊢
  exact inv.topo v j u hj (hgr u v he)

/-- Witness for C1 on the pipeline `A → B`: `B` is dispatched at position 2
of the trace, after `A`'s completion. -/
theorem schedule_topological_witness :
    ∃ i, i < 2 ∧
      (schedule [("A", ["B"]), ("B", [])] false (fun _ => Resp.structured none none)
        ["A", "B"]).trace.get? i = some (Ev.completed "A") :=
  schedule_topological [("A", ["B"]), ("B", [])] false (fun _ => Resp.structured none none)
    ["A", "B"] (by decide) (by decide) "A" "B" 2 (by decide) (by decide)

/-- C3 (single-dispatch): for every node and every run of `schedule` — any
completion order, any responses — `execute` is dispatched at most once for
that node. -/
theorem schedule_single_dispatch (g : Graph) (stream : Bool) (resp : Node → Resp)
    (choices : List Node)
    (hk : (g.map Prod.fst).Nodup) (hs : ∀ p ∈ g, p.2.Nodup) (n : Node) :
    (schedule g stream resp choices).trace.count (Ev.dispatched n) ≤ 1 := by
  have inv := sched_inv_loop g stream resp choices (sched_start g)
    (sched_inv_start g hk hs)
  rw [(schedule_trace_graph g stream resp choices).1]
  exact inv.dispOnce n

/-- Witness for C3 on the fan-in `A → C`, `B → C`: `C` is dispatched at most
once although two predecessors complete. -/
theorem schedule_single_dispatch_witness :
    (schedule [("A", ["C"]), ("B", ["C"]), ("C", [])] false
      (fun _ => Resp.structured none none) ["A", "B", "C"]).trace.count
        (Ev.dispatched "C") ≤ 1 :=
  schedule_single_dispatch [("A", ["C"]), ("B", ["C"]), ("C", [])] false
    (fun _ => Resp.structured none none) ["A", "B", "C"] (by decide) (by decide) "C"

/-- Run-level helper invariant for C2: the node `d`, black-listed by its only
predecessor `n`, is never dispatched; every runtime edge into `d` still comes
from `n`; successor lists stay duplicate-free. -/
structure BlackedOut (n d : Node) (s : Sched) : Prop where
  notDispatched : Ev.dispatched d ∉ s.trace
  onlyPred : ∀ u, edgeIn s.graph u d → u = n
  sn : ∀ p ∈ s.graph, p.2.Nodup

theorem blacked_out_start (g : Graph) (n d : Node)
    (hs : ∀ p ∈ g, p.2.Nodup) (hpred : predecessors g d = [n]) :
    BlackedOut n d (sched_start g) := by
  have hinc : hasIncoming g d = true := by
    have hn : n ∈ predecessors g d := by
      rw [hpred]
      exact List.mem_singleton.mpr rfl
    rw [predecessors] at hn
    rcases List.mem_map.mp hn with ⟨q, hq, hqn⟩
    rw [hasIncoming]
    exact List.any_eq_true.mpr ⟨q, (List.mem_filter.mp hq).1, (List.mem_filter.mp hq).2⟩
  refine ⟨?_, ?_, hs⟩
  · intro hm
    rcases List.mem_map.mp hm with ⟨a, ha, hav⟩
    have hav' : a = d := ev_dispatched_inj hav
    subst hav'
    rw [ind_nodes] at ha
    have hfil := (List.mem_filter.mp ha).2
    rw [hinc] at hfil
    simp at hfil
  · intro u he
    have hu : u ∈ predecessors g d := edgeIn_mem_predecessors he
    rw [hpred] at hu
    exact List.mem_singleton.mp hu

theorem blacked_out_step (stream : Bool) (resp : Node → Resp) (n d : Node)
    (bl : List BlackPattern) (txt : Option (List Char)) (p : BlackPattern)
    (hresp : resp n = .structured (some bl) txt)
    (hp : p ∈ bl) (hv : p.valid = true) (hh : p.hits d = true)
    (s : Sched) (c : Node) (P : BlackedOut n d s) :
    BlackedOut n d (sched_step stream resp s c) := by
  rw [sched_step]
  by_cases herr : s.errored
  · rw [if_pos herr]
    exact P
  · rw [if_neg herr]
    by_cases hc : c ∈ s.pending
    · rw [if_pos hc]
      rw [process_completion_eq]
      have hOnly : ∀ u, edgeIn (black_stage stream s.graph c (resp c)).graph u d → u = n :=
        fun u he => P.onlyPred u (black_stage_edge stream s.graph c (resp c) he)
      have hSn : ∀ q ∈ (black_stage stream s.graph c (resp c)).graph, q.2.Nodup :=
        black_stage_snodup stream s.graph c (resp c) P.sn
      have hdready : d ∉ pc_ready (black_stage stream s.graph c (resp c))
          (pc_rd s.resultDict c (resp c)
            (black_stage stream s.graph c (resp c)).override) := by
        intro hdm
        have hdds := pc_ready_sub hdm
        by_cases hcn : c = n
        · subst hcn
          rw [hresp] at hdds
          exact (black_stage_matched stream s.graph c d bl txt P.sn ⟨p, hp, hv, hh⟩).1 hdds
        · exact hcn (P.onlyPred c (black_stage_ds stream s.graph c (resp c) hdds))
      by_cases hB : (black_stage stream s.graph c (resp c)).err
      · rw [if_pos hB]
        refine ⟨?_, hOnly, hSn⟩
        intro hm
        rcases List.mem_append.mp hm with h1 | h2
        · exact P.notDispatched h1
        · have := List.mem_singleton.mp h2
          exact Ev.noConfusion this
      · rw [if_neg hB]
        refine ⟨?_, hOnly, hSn⟩
        intro hm
        rcases List.mem_append.mp hm with h1 | h2
        · rcases List.mem_append.mp h1 with h3 | h4
          · exact P.notDispatched h3
          · have := List.mem_singleton.mp h4
            exact Ev.noConfusion this
        · rcases List.mem_map.mp h2 with ⟨a, ha, hav⟩
          have hav' : a = d := ev_dispatched_inj hav
          subst hav'
          exact hdready ha
    · rw [if_neg hc]
      exact P

theorem blacked_out_loop (stream : Bool) (resp : Node → Resp) (n d : Node)
    (bl : List BlackPattern) (txt : Option (List Char)) (p : BlackPattern)
    (hresp : resp n = .structured (some bl) txt)
    (hp : p ∈ bl) (hv : p.valid = true) (hh : p.hits d = true) :
    ∀ (cs : List Node) (s : Sched), BlackedOut n d s →
      BlackedOut n d (sched_loop stream resp cs s)
  | [], _, P => P
  | c :: cs, s, P =>
    blacked_out_loop stream resp n d bl txt p hresp hp hv hh cs _
      (blacked_out_step stream resp n d bl txt p hresp hp hv hh s c P)

/-- C2 (black-list pruning): (i) per completion — when node `n` completes
with a structured payload carrying `downstream_black_list`, then for every
valid pattern `p` of the list and every node `d` that `p` matches, the edge
`(n, d)` is absent from the runtime graph after the processing, and the
processing dispatched no execute task for `d` (the matched successor was
removed from the local downstream view before the readiness scan); and (ii)
over a whole `schedule` run — if `n`'s response black-lists `d` and `n` is
`d`'s only predecessor in the template graph, then `d` is never executed. -/
theorem schedule_black_list_pruning (stream : Bool) :
    (∀ (s : Sched) (n : Node) (bl : List BlackPattern) (txt : Option (List Char))
       (p : BlackPattern) (d : Node),
       (∀ q ∈ s.graph, q.2.Nodup) → p ∈ bl → p.valid = true → p.hits d = true →
       ¬ edgeIn (process_completion stream s n (.structured (some bl) txt)).graph n d ∧
       (process_completion stream s n (.structured (some bl) txt)).trace.count
           (Ev.dispatched d)
         = s.trace.count (Ev.dispatched d)) ∧
    (∀ (g : Graph) (resp : Node → Resp) (choices : List Node) (n d : Node)
       (bl : List BlackPattern) (txt : Option (List Char)) (p : BlackPattern),
       (∀ q ∈ g, q.2.Nodup) →
       resp n = .structured (some bl) txt → p ∈ bl → p.valid = true → p.hits d = true →
       predecessors g d = [n] →
       Ev.dispatched d ∉ (schedule g stream resp choices).trace) := by
  constructor
  · intro s n bl txt p d hsn hp hv hh
    have hmat := black_stage_matched stream s.graph n d bl txt hsn ⟨p, hp, hv, hh⟩
    rw [process_completion_eq]
    by_cases hB : (black_stage stream s.graph n (.structured (some bl) txt)).err
    · rw [if_pos hB]
      refine ⟨hmat.2, ?_⟩
      rw [List.count_append, count_dispatched_single]
      omega
    · rw [if_neg hB]
      refine ⟨hmat.2, ?_⟩
      rw [List.count_append, List.count_append, count_dispatched_single,
        count_dispatched_map]
      have hz : (pc_ready (black_stage stream s.graph n (.structured (some bl) txt))
          (pc_rd s.resultDict n (.structured (some bl) txt)
            (black_stage stream s.graph n (.structured (some bl) txt)).override)).count d
          = 0 :=
        List.count_eq_zero.mpr (fun hm => hmat.1 (pc_ready_sub hm))
      omega
  · intro g resp choices n d bl txt p hsn hresp hp hv hh hpred
    have hP := blacked_out_loop stream resp n d bl txt p hresp hp hv hh choices
      (sched_start g) (blacked_out_start g n d hsn hpred)
    rw [(schedule_trace_graph g stream resp choices).1]
    exact hP.notDispatched

/-- Witness for C2: on `G → X` with the black list matching `X`, the edge
`(G, X)` is deleted by `G`'s completion processing, and over a full run `X`
is never dispatched. -/
theorem schedule_black_list_pruning_witness :
    (¬ edgeIn (process_completion true (sched_start [("G", ["X"]), ("X", [])]) "G"
        (.structured (some [patX]) (some "ok".toList))).graph "G" "X") ∧
    Ev.dispatched "X" ∉ (schedule [("G", ["X"]), ("X", [])] true respC4 ["G"]).trace :=
  ⟨((schedule_black_list_pruning true).1 (sched_start [("G", ["X"]), ("X", [])]) "G"
      [patX] (some "ok".toList) patX "X" (by decide) (List.mem_cons_self _ _) rfl
      (by decide)).1,
   (schedule_black_list_pruning true).2 [("G", ["X"]), ("X", [])] respC4 ["G"] "G" "X"
      [patX] (some "ok".toList) patX (by decide) rfl (List.mem_cons_self _ _) rfl
      (by decide) (by decide)⟩
